import Mathlib

/-!
Verification development for the telegram bot's message-routing and
conversational-state core.  The definitions below are shallow embeddings of
the TypeScript source:

* `src/action/utils.ts` — JSON extraction from model responses, mention
  tracking, the timeout sweep (`checkMentionTimeouts`,
  `handleUnrespondedMentions`, `markMentionsAsRead`, `checkForResponse`,
  `trackMention`);
* `src/telegram/messageManager.ts` — the router in `handleMessage` and
  `_analyzeMessageForActions`;
* `src/action/sendToGroup.ts` — the dialog-state store
  (`getSendToGroupState` / `setSendToGroupState` / `clearSendToGroupState`)
  and the confirmation-stage dispatch.

The Redis store is modelled as association lists over the keys the mention
subsystem uses; JavaScript `JSON.parse` / `JSON.stringify` are modelled by an
executable character-level parser and printer for a JSON value type.
-/

namespace TgBot

/-- Opening curly brace character (written via its code point). -/
def lbrace : Char := Char.ofNat 123

/-- Closing curly brace character (written via its code point). -/
def rbrace : Char := Char.ofNat 125

/-- JSON whitespace characters accepted by `JSON.parse`. -/
def isWsChar (c : Char) : Bool := c = ' ' || c = '\t' || c = '\n' || c = '\r'

/-- Drop leading JSON whitespace. -/
def skipWs : List Char → List Char
  | [] => []
  | c :: cs => if isWsChar c then skipWs cs else c :: cs

/-- ASCII decimal digit test (code points 48 through 57). -/
def isDigit (c : Char) : Bool := 48 ≤ c.toNat && c.toNat ≤ 57

/-- JSON value tree, the result type of the `JSON.parse` model.  Numbers keep
their raw lexeme: no claim depends on numeric semantics. -/
inductive Json where
  | null
  | bool (b : Bool)
  | num (raw : String)
  | str (s : String)
  | arr (elems : List Json)
  | obj (members : List (String × Json))

/-- Value of a hexadecimal digit, if any. -/
def hexVal (c : Char) : Option Nat :=
  if '0' ≤ c && c ≤ '9' then some (c.toNat - 48)
  else if 'a' ≤ c && c ≤ 'f' then some (c.toNat - 87)
  else if 'A' ≤ c && c ≤ 'F' then some (c.toNat - 55)
  else none

/-- Decoded character for a single-letter JSON string escape. -/
def escChar (c : Char) : Option Char :=
  if c = '"' then some '"'
  else if c = '\\' then some '\\'
  else if c = '/' then some '/'
  else if c = 'b' then some (Char.ofNat 8)
  else if c = 'f' then some (Char.ofNat 12)
  else if c = 'n' then some '\n'
  else if c = 'r' then some '\r'
  else if c = 't' then some '\t'
  else none

/-- Parse the body of a JSON string after the opening quote; returns the
decoded characters and the input remaining after the closing quote. -/
def parseStringBody : List Char → Option (List Char × List Char)
  | [] => none
  | c :: cs =>
    if c = '"' then some ([], cs)
    else if c = '\\' then
      match cs with
      | [] => none
      | e :: cs2 =>
        if e = 'u' then
          match cs2 with
          | h1 :: h2 :: h3 :: h4 :: cs3 =>
            match hexVal h1, hexVal h2, hexVal h3, hexVal h4 with
            | some a, some b, some c3, some d =>
              (fun p => (Char.ofNat (((a * 16 + b) * 16 + c3) * 16 + d) :: p.1, p.2)) <$>
                parseStringBody cs3
            | _, _, _, _ => none
          | _ => none
        else
          match escChar e with
          | some ec => (fun p => (ec :: p.1, p.2)) <$> parseStringBody cs2
          | none => none
    else if c.toNat < 32 then none
    else (fun p => (c :: p.1, p.2)) <$> parseStringBody cs

/-- Characters that may occur in a JSON number lexeme. -/
def numChar (c : Char) : Bool :=
  isDigit c || c = '.' || c = 'e' || c = 'E' || c = '+' || c = '-'

/-- Validate the integer part of a number lexeme, returning the rest. -/
def vInt : List Char → Option (List Char)
  | [] => none
  | c :: r =>
    if c = '0' then
      match r with
      | d :: _ => if isDigit d then none else some r
      | [] => some []
    else if isDigit c then some (r.dropWhile isDigit)
    else none

/-- Validate an optional fraction part of a number lexeme. -/
def vFrac : List Char → Option (List Char)
  | [] => some []
  | c :: r =>
    if c = '.' then
      match r with
      | d :: _ => if isDigit d then some (r.dropWhile isDigit) else none
      | [] => none
    else some (c :: r)

/-- Validate an optional exponent part of a number lexeme. -/
def vExp : List Char → Option (List Char)
  | [] => some []
  | c :: r =>
    if c = 'e' || c = 'E' then
      let r2 := match r with
        | s :: r3 => if s = '+' || s = '-' then r3 else s :: r3
        | [] => []
      match r2 with
      | d :: _ => if isDigit d then some (r2.dropWhile isDigit) else none
      | [] => none
    else some (c :: r)

/-- Validity of a complete JSON number lexeme. -/
def validNum (l : List Char) : Bool :=
  let l1 := match l with
    | c :: r => if c = '-' then r else c :: r
    | [] => []
  match vInt l1 with
  | none => false
  | some r1 =>
    match vFrac r1 with
    | none => false
    | some r2 =>
      match vExp r2 with
      | none => false
      | some r3 => r3.isEmpty

/-- Parse a JSON number: take the maximal run of number characters and check
it against the JSON number grammar, keeping the raw lexeme. -/
def parseNumber (cs : List Char) : Option (List Char × List Char) :=
  let lex := cs.takeWhile numChar
  if validNum lex then some (lex, cs.drop lex.length) else none

mutual

/-- Parse a JSON value (model of the recursive core of `JSON.parse`).  The
fuel argument bounds the recursion; it shrinks at every nesting step and at
every object member / array element, so `input length + 1` always suffices. -/
def parseValue : Nat → List Char → Option (Json × List Char)
  | 0, _ => none
  | fuel + 1, cs =>
    match skipWs cs with
    | [] => none
    | c :: rest =>
      if c = '"' then
        match parseStringBody rest with
        | some (s, r) => some (.str ⟨s⟩, r)
        | none => none
      else if c = lbrace then parseMembers fuel (skipWs rest) true
      else if c = '[' then parseElems fuel (skipWs rest) true
      else if c = 't' then
        match rest with
        | 'r' :: 'u' :: 'e' :: r => some (.bool true, r)
        | _ => none
      else if c = 'f' then
        match rest with
        | 'a' :: 'l' :: 's' :: 'e' :: r => some (.bool false, r)
        | _ => none
      else if c = 'n' then
        match rest with
        | 'u' :: 'l' :: 'l' :: r => some (.null, r)
        | _ => none
      else
        match parseNumber (c :: rest) with
        | some (raw, r) => some (.num ⟨raw⟩, r)
        | none => none

/-- Parse the members of a JSON object after the opening brace (whitespace
already skipped); `first` is true before the first member. -/
def parseMembers : Nat → List Char → Bool → Option (Json × List Char)
  | 0, _, _ => none
  | fuel + 1, cs, first =>
    match cs with
    | [] => none
    | c :: rest =>
      if first && c = rbrace then some (.obj [], rest)
      else if c = '"' then
        match parseStringBody rest with
        | none => none
        | some (k, r1) =>
          match skipWs r1 with
          | ':' :: r2 =>
            match parseValue fuel r2 with
            | none => none
            | some (v, r3) =>
              match skipWs r3 with
              | [] => none
              | c2 :: r4 =>
                if c2 = ',' then
                  match parseMembers fuel (skipWs r4) false with
                  | some (.obj ms, r5) => some (.obj ((⟨k⟩, v) :: ms), r5)
                  | _ => none
                else if c2 = rbrace then some (.obj [(⟨k⟩, v)], r4)
                else none
          | _ => none
      else none

/-- Parse the elements of a JSON array after the opening bracket (whitespace
already skipped); `first` is true before the first element. -/
def parseElems : Nat → List Char → Bool → Option (Json × List Char)
  | 0, _, _ => none
  | fuel + 1, cs, first =>
    match cs with
    | [] => none
    | c :: _ =>
      if first && c = ']' then
        match cs with
        | _ :: rest => some (.arr [], rest)
        | [] => none
      else
        match parseValue fuel cs with
        | none => none
        | some (v, r1) =>
          match skipWs r1 with
          | [] => none
          | c2 :: r2 =>
            if c2 = ',' then
              match parseElems fuel (skipWs r2) false with
              | some (.arr es, r3) => some (.arr (v :: es), r3)
              | _ => none
            else if c2 = ']' then some (.arr [v], r2)
            else none

end

/-- Model of JavaScript `JSON.parse`: parse one value and require only
whitespace to remain; `none` models a thrown `SyntaxError`. -/
def jsonParse (s : String) : Option Json :=
  match parseValue (s.length + 1) s.data with
  | some (v, rest) => if (skipWs rest).isEmpty then some v else none
  | none => none

/-- Suffix of the input starting at the first opening brace, if any. -/
def dropUntilLbrace : List Char → Option (List Char)
  | [] => none
  | c :: cs => if c = lbrace then some (c :: cs) else dropUntilLbrace cs

/-- Suffix of the input starting at the first closing brace, if any. -/
def dropUntilRbrace : List Char → Option (List Char)
  | [] => none
  | c :: cs => if c = rbrace then some (c :: cs) else dropUntilRbrace cs

/-- Model of matching the greedy regex used by `extractJsonFromResponse`
(`utils.ts` line 13): an opening brace, then any characters, then a closing
brace.  The match runs from the first opening brace to the last closing
brace of the whole input, provided the latter comes after the former. -/
def greedyBraceSpan (s : String) : Option String :=
  match dropUntilLbrace s.data with
  | none => none
  | some suff =>
    match dropUntilRbrace suff.reverse with
    | none => none
    | some revSpan => some ⟨revSpan.reverse⟩

/-- Model of `extractJsonFromResponse` (`utils.ts` lines 7-24): try a direct
parse; on failure match the greedy brace regex and parse the match; `none`
models the function returning JavaScript `null`. -/
def extractJsonFromResponse (response : String) : Option Json :=
  match jsonParse response with
  | some v => some v
  | none =>
    match greedyBraceSpan response with
    | some t => jsonParse t
    | none => none

/-- Length of the prefix of the input up to and including the brace that
closes the bracket opened at depth `depth`; `n` counts consumed characters. -/
def balancedPrefixLen : Nat → Nat → List Char → Option Nat
  | _, _, [] => none
  | depth, n, c :: cs =>
    if c = lbrace then balancedPrefixLen (depth + 1) (n + 1) cs
    else if c = rbrace then
      if depth = 1 then some (n + 1) else balancedPrefixLen (depth - 1) (n + 1) cs
    else balancedPrefixLen depth (n + 1) cs

/-- First balanced brace span of the input, if any. -/
def firstBalancedSpan (s : String) : Option String :=
  match dropUntilLbrace s.data with
  | none => none
  | some suff =>
    match balancedPrefixLen 0 0 suff with
    | some n => some ⟨suff.take n⟩
    | none => none

/-- Modelled from the spec: the spec-side JSON extraction routine, which
"must extract the first balanced span and parse it, returning an explicit
unparsable outcome on failure".  Kept separate from the source-side
`extractJsonFromResponse` so the two can be compared. -/
def specExtractJson (response : String) : Option Json :=
  match firstBalancedSpan response with
  | some t => jsonParse t
  | none => none

/-! ### Mention tracking and the timeout sweep (`src/action/utils.ts`) -/

/-- Mention record stored in the Redis hash at key
`mention:{chatId}:{messageId}` by `trackMention`.  All fields are strings,
as Redis hashes store strings. -/
structure MentionRec where
  mentioner : String
  mentionedId : String
  chat : String
  message : String
  text : String
  timestamp : String
  title : String
  status : String
deriving DecidableEq

/-- Record with every field empty, used when a Redis `hset` touches a hash
that does not exist yet (Redis then creates it with only that field). -/
def emptyRec : MentionRec := ⟨"", "", "", "", "", "", "", ""⟩

/-- Split a character list at every colon (JavaScript `split(':')`). -/
def splitColon : List Char → List (List Char)
  | [] => [[]]
  | c :: cs =>
    if c = ':' then [] :: splitColon cs
    else
      match splitColon cs with
      | [] => [[c]]
      | seg :: rest => (c :: seg) :: rest

/-- Segments of a colon-separated member string. -/
def refSegs (ref : String) : List String := (splitColon ref.data).map (⟨·⟩)

/-- First segment of a colon-separated member string, mirroring
`member.split(':')` destructured to its first element. -/
def refFst (ref : String) : String := (refSegs ref).getD 0 ""

/-- Second segment of a colon-separated member string. -/
def refSnd (ref : String) : String := (refSegs ref).getD 1 ""

/-- Hash-key suffix `{chatId}:{messageId}` identifying one mention record. -/
def mkey (chatId messageId : String) : String := chatId ++ ":" ++ messageId

/-- Lookup in an association list (a Redis key space). -/
def alGet (l : List (String × α)) (k : String) : Option α :=
  (l.find? (fun e => e.1 = k)).map (·.2)

/-- Replace-or-append update of an association list. -/
def alSet (l : List (String × α)) (k : String) (v : α) : List (String × α) :=
  match l with
  | [] => [(k, v)]
  | e :: rest => if e.1 = k then (k, v) :: rest else e :: alSet rest k v

/-- Delete a key from an association list (Redis `del`, idempotent). -/
def alDel (l : List (String × α)) (k : String) : List (String × α) :=
  l.filter (fun e => e.1 ≠ k)

/-- Remove a member from a sorted set (Redis `zrem`). -/
def zrem (l : List (String × Nat)) (m : String) : List (String × Nat) :=
  l.filter (fun e => e.1 ≠ m)

/-- Insert an entry into a score-sorted list, keeping order by score and
then member, mirroring the ordering Redis maintains for sorted sets. -/
def zinsert (e : String × Nat) : List (String × Nat) → List (String × Nat)
  | [] => [e]
  | f :: rest =>
    if e.2 < f.2 || (e.2 = f.2 && e.1 ≤ f.1) then e :: f :: rest
    else f :: zinsert e rest

/-- Add a member with a score to a sorted set (Redis `zadd`). -/
def zadd (l : List (String × Nat)) (m : String) (score : Nat) : List (String × Nat) :=
  zinsert (m, score) (zrem l m)

/-- Entries of the sorted set stored at a key; a missing key reads as the
empty set, as in Redis. -/
def zsetOf (l : List (String × List (String × Nat))) (k : String) : List (String × Nat) :=
  (alGet l k).getD []

/-- The slice of the Redis key space that the mention subsystem reads and
writes.  `mentionHash` holds `mention:{chatId}:{messageId}` hashes keyed by
the `{chatId}:{messageId}` suffix; `chatPending` holds the sorted sets
`chat:{chatId}:mentions:pending` keyed by chat id; `userPending` holds the
sorted sets `user:{userId}:pending_mentions` keyed by user id;
`privateChat` holds `user:{userId}:private_chat_id`; `hasGroups` lists the
user ids for which `user:{id}:groups` exists; `usernameMap` holds
`username_map:{username}`. -/
structure Store where
  mentionHash : List (String × MentionRec)
  chatPending : List (String × List (String × Nat))
  userPending : List (String × List (String × Nat))
  privateChat : List (String × String)
  hasGroups : List String
  usernameMap : List (String × String)
deriving DecidableEq

/-- Store with nothing in it. -/
def emptyStore : Store := ⟨[], [], [], [], [], []⟩

/-- Set one field of a mention hash to a new status (`hset ... 'status' v`);
if the hash does not exist Redis creates it with only that field. -/
def hsetStatus (h : List (String × MentionRec)) (k status : String) :
    List (String × MentionRec) :=
  match alGet h k with
  | some r => alSet h k { r with status := status }
  | none => alSet h k { emptyRec with status := status }

/-- Model of `trackMention` (`utils.ts` lines 125-145): store the mention
record and index it in the per-chat pending set (member
`{mentionedId}:{messageId}`) and the per-user pending set (member
`{chatId}:{messageId}`), both scored by the timestamp. -/
def trackMention (mentionerId mentionedId chatId messageId text title : String)
    (timestamp : Nat) (st : Store) : Store :=
  let r : MentionRec :=
    { mentioner := mentionerId, mentionedId := mentionedId, chat := chatId,
      message := messageId, text := text, timestamp := toString timestamp,
      title := title, status := "unresponded" }
  { st with
    mentionHash := alSet st.mentionHash (mkey chatId messageId) r,
    chatPending := alSet st.chatPending chatId
      (zadd (zsetOf st.chatPending chatId) (mkey mentionedId messageId) timestamp),
    userPending := alSet st.userPending mentionedId
      (zadd (zsetOf st.userPending mentionedId) (mkey chatId messageId) timestamp) }

/-- One iteration of the loop in `checkForResponse`: if the pending member
`{mentionedId}:{messageId}` names the responder, mark the record responded
and remove the member from both indexes. -/
def respondStep (chatId responderId : String) (st : Store) (ref : String) : Store :=
  let mentionedId := refFst ref
  let messageId := refSnd ref
  if mentionedId = responderId then
    { st with
      mentionHash := hsetStatus st.mentionHash (mkey chatId messageId) "responded",
      chatPending := alSet st.chatPending chatId
        (zrem (zsetOf st.chatPending chatId) ref),
      userPending := alSet st.userPending mentionedId
        (zrem (zsetOf st.userPending mentionedId) (mkey chatId messageId)) }
  else st

/-- Model of `checkForResponse` (`utils.ts` lines 106-122).  The loop
iterates a snapshot of the per-chat pending set taken before any update.
Nothing in the repository ever calls this function. -/
def checkForResponse (chatId responderId : String) (st : Store) : Store :=
  (zsetOf st.chatPending chatId).foldl (fun s e => respondStep chatId responderId s e.1) st

/-- One iteration of the loop in `markMentionsAsRead`: for a pending member
`{chatId}:{messageId}` of the user that lies in the current chat, set the
record status to read and remove the member from the per-user index and the
member `{userId}:{messageId}` from the per-chat index. -/
def readStep (userId chatId : String) (st : Store) (ref : String) : Store :=
  if refFst ref = chatId then
    let messageId := refSnd ref
    { st with
      mentionHash := hsetStatus st.mentionHash (mkey chatId messageId) "read",
      userPending := alSet st.userPending userId
        (zrem (zsetOf st.userPending userId) ref),
      chatPending := alSet st.chatPending chatId
        (zrem (zsetOf st.chatPending chatId) (mkey userId messageId)) }
  else st

/-- Model of `markMentionsAsRead` (`utils.ts` lines 367-396): iterate a
snapshot of the sender's pending-mention set and close out the ones that
are in the current chat. -/
def markMentionsAsRead (userId chatId : String) (st : Store) : Store :=
  (zsetOf st.userPending userId).foldl (fun s e => readStep userId chatId s e.1) st

/-- A mention entity of an inbound message: an `@username` mention to be
resolved through `username_map`, or a resolved text mention carrying the
user id. -/
inductive MentionEntity where
  | byUsername (username : String)
  | byId (id : String)
deriving DecidableEq

/-- Resolve a mention entity to a user id as `handleMention` does; a
username with no `username_map` entry resolves to JavaScript `null`, which
the string-typed store serializes as `"null"`. -/
def resolveEntity (st : Store) (e : MentionEntity) : String :=
  match e with
  | .byUsername u => (alGet st.usernameMap u.toLower).getD "null"
  | .byId i => i

/-- Per-entity body of `handleMention` (`utils.ts` lines 323-365): track the
mention when the mentioner or the mentioned user is known to the system. -/
def handleMentionEntity (fromId chatId messageId text title : String) (now : Nat)
    (st : Store) (e : MentionEntity) : Store :=
  let mentionedId := resolveEntity st e
  if st.hasGroups.contains fromId || st.hasGroups.contains mentionedId then
    trackMention fromId mentionedId chatId messageId text title now st
  else st

/-- Model of `handleMention`: process each mention entity of the message in
order. -/
def handleMention (fromId chatId messageId text title : String) (now : Nat)
    (entities : List MentionEntity) (st : Store) : Store :=
  entities.foldl (handleMentionEntity fromId chatId messageId text title now) st

/-- Mention-relevant effect of the group-message handler in
`TelegramClient.setupMessageHandlers` (`part_011` lines 182-215): the
handler calls `markMentionsAsRead(ctx.from.id, ctx.chat.id)` and then
`handleMention(ctx)`.  The message-log writes in the same handler touch
keys outside this model.  No call to `checkForResponse` occurs here or
anywhere else. -/
def onGroupMessage (fromId chatId messageId text title : String) (now : Nat)
    (entities : List MentionEntity) (st : Store) : Store :=
  handleMention fromId chatId messageId text title now entities
    (markMentionsAsRead fromId chatId st)

/-- Outcome of the chat transport for notification sends: whether a
`sendMessage` to a given private chat id or group chat id succeeds. -/
structure Transport where
  privOk : String → Bool
  groupOk : String → Bool

/-- An outbound notification call made by the sweep, carrying the mention
records the message lists. -/
inductive SendCall where
  | toPrivate (privateChatId : String) (mentions : List MentionRec)
  | toGroup (chatId : String) (mentions : List MentionRec)
deriving DecidableEq

/-- Group a list of mention records by their chat id, keeping first-seen
order, mirroring the `mentionsByChat` object built in
`handleUnrespondedMentions`. -/
def groupByChat (recs : List MentionRec) : List (String × List MentionRec) :=
  recs.foldl (fun acc r =>
    match acc.find? (fun e => e.1 = r.chat) with
    | some _ => acc.map (fun e => if e.1 = r.chat then (e.1, e.2 ++ [r]) else e)
    | none => acc ++ [(r.chat, [r])]) []

/-- Model of `handleUnrespondedMentions` (`utils.ts` lines 270-321).  With a
registered private chat id it makes one `sendMessage` call listing every
mention and rethrows on failure (`Except.error`).  With none it falls back
to one `sendMessage` per chat; those per-chat failures are caught and
swallowed inside the loop, so the fallback path always returns normally.
The returned list records the calls attempted. -/
def handleUnrespondedMentions (tr : Transport) (st : Store) (userId : String)
    (mentions : List MentionRec) : Except (List SendCall) (List SendCall) :=
  match alGet st.privateChat userId with
  | some p =>
    if tr.privOk p then .ok [.toPrivate p mentions]
    else .error [.toPrivate p mentions]
  | none => .ok ((groupByChat mentions).map (fun e => .toGroup e.1 e.2))

/-- The `mentionsToNotify` / `mentionsToDelete` collection loop of
`checkMentionTimeouts`: walk the user's pending members in order, load each
record, and keep the ones whose status is `unresponded` (a missing hash
reads as an empty one, whose status is not `unresponded`). -/
def collectUnresponded (st : Store) (entries : List (String × Nat)) :
    List (String × MentionRec) :=
  entries.foldl (fun acc e =>
    match alGet st.mentionHash (mkey (refFst e.1) (refSnd e.1)) with
    | some r => if r.status = "unresponded" then acc ++ [(e.1, r)] else acc
    | none => acc) []

/-- One step of the cleanup pipeline of `checkMentionTimeouts`: remove the
member from the per-user pending set and delete the mention hash.  The
per-chat pending set is not touched. -/
def cleanupMention (userId : String) (st : Store) (ref : String) : Store :=
  { st with
    userPending := alSet st.userPending userId
      (zrem (zsetOf st.userPending userId) ref),
    mentionHash := alDel st.mentionHash (mkey (refFst ref) (refSnd ref)) }

/-- Result of sweeping one user: the updated store, the notification calls
attempted, and the `(member, record)` pairs collected as unresponded. -/
structure SweepUserResult where
  store : Store
  calls : List SendCall
  notified : List (String × MentionRec)
deriving DecidableEq

/-- Per-user body of the loop in `checkMentionTimeouts` (`utils.ts` lines
210-248): collect the unresponded mentions, and if there are any, notify;
on success run the cleanup pipeline over the collected members, on a thrown
send error catch it and leave the store untouched. -/
def sweepUser (tr : Transport) (st : Store) (userId : String) : SweepUserResult :=
  let entries := zsetOf st.userPending userId
  let notify := collectUnresponded st entries
  if notify.isEmpty then ⟨st, [], notify⟩
  else
    match handleUnrespondedMentions tr st userId (notify.map (·.2)) with
    | .ok calls => ⟨(notify.map (·.1)).foldl (cleanupMention userId) st, calls, notify⟩
    | .error calls => ⟨st, calls, notify⟩

/-- Users whose `user:{userId}:pending_mentions` key exists (Redis deletes a
sorted-set key when its last member is removed, so existence means a
nonempty set); this is the `redis.keys` enumeration taken once at the start
of the sweep. -/
def usersWithPending (st : Store) : List String :=
  (st.userPending.filter (fun e => ¬ e.2.isEmpty)).map (·.1)

/-- Model of `checkMentionTimeouts` (`utils.ts` lines 207-249): sweep every
user with pending mentions, threading the store and concatenating the
notification calls. -/
def checkMentionTimeouts (tr : Transport) (st : Store) : Store × List SendCall :=
  (usersWithPending st).foldl (fun acc u =>
    let r := sweepUser tr acc.1 u
    (r.store, acc.2 ++ r.calls)) (st, [])

/-! ### The message router (`src/telegram/messageManager.ts`) -/

/-- One configured action as the router sees it for a fixed inbound message:
its registered name and what its `validate` contract returns for that
message. -/
structure RAction where
  name : String
  validates : Bool
deriving DecidableEq

/-- Parsed shape of the action-analysis classifier response used by
`handleMessage`. -/
structure Analysis where
  potentialActions : List String
  needsFullValidation : Bool
deriving DecidableEq

/-- Model of the parse step of `_analyzeMessageForActions` (lines
1767-1779): an unparsable classifier response is caught and yields no
nominations with `needsFullValidation` set. -/
def analysisOf (parsed : Option Analysis) : Analysis :=
  parsed.getD ⟨[], true⟩

/-- Find a configured action by name (`runtime.actions.find`). -/
def findAction (actions : List RAction) (n : String) : Option RAction :=
  actions.find? (fun a => a.name = n)

/-- The nominated-action loop of `handleMessage` (lines 1484-1499): try each
nominated name in order, skipping names with no configured action, and
dispatch to the first whose `validate` returns true. -/
def tryNominated (actions : List RAction) : List String → Option String
  | [] => none
  | n :: rest =>
    match findAction actions n with
    | none => tryNominated actions rest
    | some a => if a.validates then some a.name else tryNominated actions rest

/-- Names of the actions whose `handler` the router invokes for one inbound
message (`handleMessage` lines 1482-1507): when the analysis needs no full
validation and nominates at least one action, the nominated loop may
dispatch (to at most one action); when nothing was handled this way, the
action named DEFAULT is invoked if configured.  No other per-action
validation sweep exists in the code. -/
def invokedHandlers (actions : List RAction) (a : Analysis) : List String :=
  let viaNominated :=
    if a.needsFullValidation = false ∧ 0 < a.potentialActions.length then
      tryNominated actions a.potentialActions
    else none
  match viaNominated with
  | some n => [n]
  | none =>
    match findAction actions "DEFAULT" with
    | some d => [d.name]
    | none => []

/-! ### The send-to-group dialog state (`src/action/sendToGroup.ts`) -/

/-- The closed set of dialog stages of the `SendToGroupState` interface. -/
inductive Stage where
  | initial
  | group_selection
  | message_collection
  | confirmation
  | editing
  | cancelled
deriving DecidableEq

/-- String value each stage takes in the persisted JSON. -/
def stageStr : Stage → String
  | .initial => "initial"
  | .group_selection => "group_selection"
  | .message_collection => "message_collection"
  | .confirmation => "confirmation"
  | .editing => "editing"
  | .cancelled => "cancelled"

/-- Inverse reading of a stage string. -/
def strToStage (s : String) : Option Stage :=
  if s = "initial" then some .initial
  else if s = "group_selection" then some .group_selection
  else if s = "message_collection" then some .message_collection
  else if s = "confirmation" then some .confirmation
  else if s = "editing" then some .editing
  else if s = "cancelled" then some .cancelled
  else none

/-- The `messageDetails` payload of `SendToGroupState`. -/
structure MessageDetails where
  targetGroup : String
  messageContent : String
  previousMessage : Option String
  previousGroup : Option String
deriving DecidableEq

/-- The `SendToGroupState` interface: stage, optional payload, and the
optional bookkeeping fields declared on the interface. -/
structure SendToGroupState where
  stage : Stage
  messageDetails : Option MessageDetails
  retryCount : Option Nat
  lastError : Option String
  lastAction : Option String
deriving DecidableEq

/-- Hexadecimal digit character for a value below 16. -/
def hexDigit (n : Nat) : Char :=
  if n < 10 then Char.ofNat (48 + n) else Char.ofNat (87 + n)

/-- Escape one character the way `JSON.stringify` quotes strings. -/
def escapeJsonChar (c : Char) : List Char :=
  if c = '"' then ['\\', '"']
  else if c = '\\' then ['\\', '\\']
  else if c = '\n' then ['\\', 'n']
  else if c = '\r' then ['\\', 'r']
  else if c = '\t' then ['\\', 't']
  else if c.toNat = 8 then ['\\', 'b']
  else if c.toNat = 12 then ['\\', 'f']
  else if c.toNat < 32 then
    ['\\', 'u', '0', '0', hexDigit (c.toNat / 16), hexDigit (c.toNat % 16)]
  else [c]

/-- Print a string as a quoted JSON string literal. -/
def printStr (s : String) : List Char :=
  '"' :: (s.data.map escapeJsonChar).flatten ++ ['"']

mutual

/-- Model of `JSON.stringify` on a JSON value (no indentation argument). -/
def printJson : Json → List Char
  | .null => "null".data
  | .bool b => if b then "true".data else "false".data
  | .num raw => raw.data
  | .str s => printStr s
  | .arr es => '[' :: printElemsJ es ++ [']']
  | .obj ms => lbrace :: printMembersJ ms ++ [rbrace]

/-- Print array elements, comma separated. -/
def printElemsJ : List Json → List Char
  | [] => []
  | [e] => printJson e
  | e :: rest => printJson e ++ ',' :: printElemsJ rest

/-- Print object members, comma separated, keys quoted. -/
def printMembersJ : List (String × Json) → List Char
  | [] => []
  | [m] => printStr m.1 ++ ':' :: printJson m.2
  | m :: rest => printStr m.1 ++ ':' :: printJson m.2 ++ ',' :: printMembersJ rest

end

/-- Decimal digit characters of a positive number, least significant first;
the fuel argument only bounds the recursion. -/
def natCharsAux : Nat → Nat → List Char
  | 0, _ => []
  | _ + 1, 0 => []
  | fuel + 1, n + 1 => Char.ofNat (48 + (n + 1) % 10) :: natCharsAux fuel ((n + 1) / 10)

/-- Decimal digit characters of a natural number, most significant first,
matching `JSON.stringify` of a nonnegative integral JavaScript number. -/
def natChars (n : Nat) : List Char :=
  if n = 0 then ['0'] else (natCharsAux (n + 1) n).reverse

/-- JSON tree of a `messageDetails` payload, fields in the order the source
object literals create them, optional fields omitted when absent, exactly
as `JSON.stringify` serializes the TypeScript object. -/
def encodeDetails (d : MessageDetails) : Json :=
  Json.obj
    ([("targetGroup", Json.str d.targetGroup),
      ("messageContent", Json.str d.messageContent)]
      ++ (match d.previousMessage with
          | some p => [("previousMessage", Json.str p)]
          | none => [])
      ++ (match d.previousGroup with
          | some p => [("previousGroup", Json.str p)]
          | none => []))

/-- Member list of the JSON tree of a `SendToGroupState`, fields in
interface order, optional fields omitted when absent. -/
def stateMembers (s : SendToGroupState) : List (String × Json) :=
  [("stage", Json.str (stageStr s.stage))]
    ++ (match s.messageDetails with
        | some d => [("messageDetails", encodeDetails d)]
        | none => [])
    ++ (match s.retryCount with
        | some n => [("retryCount", Json.num ⟨natChars n⟩)]
        | none => [])
    ++ (match s.lastError with
        | some e => [("lastError", Json.str e)]
        | none => [])
    ++ (match s.lastAction with
        | some a => [("lastAction", Json.str a)]
        | none => [])

/-- JSON tree of a `SendToGroupState`, exactly as `JSON.stringify`
serializes the TypeScript object. -/
def encodeState (s : SendToGroupState) : Json := Json.obj (stateMembers s)

/-- Model of `JSON.stringify(state)` as called by `setSendToGroupState`. -/
def stringifyState (s : SendToGroupState) : String :=
  ⟨printJson (encodeState s)⟩

/-- Field lookup on a JSON object value. -/
def jsonField (j : Json) (k : String) : Option Json :=
  match j with
  | .obj ms => (ms.find? (fun e => e.1 = k)).map (·.2)
  | _ => none

/-- Read an optional string field: an absent field is `none`, a present
string field is `some`, anything else fails the read. -/
def optStrField (j : Json) (k : String) : Option (Option String) :=
  match jsonField j k with
  | none => some none
  | some (.str s) => some (some s)
  | some _ => none

/-- Digit characters back to a natural number, if the lexeme is a nonempty
run of digits. -/
def natParse (l : List Char) : Option Nat :=
  if l ≠ [] && l.all isDigit then
    some (l.foldl (fun acc c => acc * 10 + (c.toNat - 48)) 0)
  else none

/-- Read an optional natural-number field. -/
def optNatField (j : Json) (k : String) : Option (Option Nat) :=
  match jsonField j k with
  | none => some none
  | some (.num raw) => (natParse raw.data).map some
  | some _ => none

/-- Read a `messageDetails` payload back from its JSON tree. -/
def decodeDetails (j : Json) : Option MessageDetails :=
  match jsonField j "targetGroup", jsonField j "messageContent" with
  | some (.str tg), some (.str mc) =>
    match optStrField j "previousMessage", optStrField j "previousGroup" with
    | some pm, some pg => some ⟨tg, mc, pm, pg⟩
    | _, _ => none
  | _, _ => none

/-- Read a `SendToGroupState` back from its JSON tree, field by field: this
is the deep-equality reading of the object the TypeScript cast returns. -/
def decodeState (j : Json) : Option SendToGroupState :=
  match jsonField j "stage" with
  | some (.str s) =>
    match strToStage s with
    | none => none
    | some stage =>
      let details := match jsonField j "messageDetails" with
        | none => some none
        | some dj => (decodeDetails dj).map some
      match details, optNatField j "retryCount",
            optStrField j "lastError", optStrField j "lastAction" with
      | some md, some rc, some le, some la => some ⟨stage, md, rc, le, la⟩
      | _, _, _, _ => none
  | _ => none

/-- The runtime cache consumed by the dialog-state accessors: a
string-keyed map of stored strings. -/
def Cache : Type := List (String × String)

/-- Read a cache key. -/
def cacheGet (c : Cache) (k : String) : Option String := alGet c k

/-- Write a cache key. -/
def cacheSet (c : Cache) (k v : String) : Cache := alSet c k v

/-- Delete a cache key (idempotent). -/
def cacheDel (c : Cache) (k : String) : Cache := alDel c k

/-- Cache key used for a room's send-to-group dialog state. -/
def stateKey (roomId : String) : String := "send_to_group:" ++ roomId

/-- Model of `getSendToGroupState` (`sendToGroup.ts` lines 18-27): read the
cached string; a missing or falsy (empty) value is absent; a `JSON.parse`
failure is caught and also yields absent.  The TypeScript cast performs no
validation, so the parsed JSON tree itself is what the caller receives. -/
def getSendToGroupState (c : Cache) (roomId : String) : Option Json :=
  match cacheGet c (stateKey roomId) with
  | none => none
  | some s => if s = "" then none else jsonParse s

/-- Model of `setSendToGroupState` (lines 29-31): store the serialized
state under the room's key, replacing any previous value. -/
def setSendToGroupState (c : Cache) (roomId : String) (st : SendToGroupState) : Cache :=
  cacheSet c (stateKey roomId) (stringifyState st)

/-- Model of `clearSendToGroupState` (lines 33-35). -/
def clearSendToGroupState (c : Cache) (roomId : String) : Cache :=
  cacheDel c (stateKey roomId)

/-- Prefix test on character lists. -/
def leadsWith : List Char → List Char → Bool
  | [], _ => true
  | _ :: _, [] => false
  | x :: xs, y :: ys => x = y && leadsWith xs ys

/-- Substring test on character lists (JavaScript `String.includes`). -/
def subInList (sub : List Char) : List Char → Bool
  | [] => sub.isEmpty
  | c :: cs => leadsWith sub (c :: cs) || subInList sub cs

/-- JavaScript `text.includes(sub)`. -/
def strIncludes (s sub : String) : Bool := subInList sub.data s.data

/-- JavaScript `text.toLowerCase()` (character-wise lowering, which agrees
with it on the ASCII keywords the dialog tests for). -/
def lowerStr (s : String) : String := ⟨s.data.map Char.toLower⟩

/-- Model of `isConfirmationMessage` (`sendToGroup.ts` lines 38-43). -/
def isConfirmationMessage (text : String) : Bool :=
  let l := lowerStr text
  strIncludes l "yes" || strIncludes l "confirm" || strIncludes l "send"

/-- Model of `isCancellationMessage` (lines 45-50). -/
def isCancellationMessage (text : String) : Bool :=
  let l := lowerStr text
  strIncludes l "no" || strIncludes l "cancel" || strIncludes l "stop"

/-- Path taken by `sendToGroupAction.handler` in the confirmation stage
(lines 224-273) for a message text. -/
inductive ConfirmOutcome where
  | sendPath
  | cancelPath
  | fallThrough
deriving DecidableEq

/-- Confirmation-stage dispatch: the confirmation test runs first, the
cancellation test only if it failed; any other text falls through to the
intent analysis. -/
def confirmStage (text : String) : ConfirmOutcome :=
  if isConfirmationMessage text then .sendPath
  else if isCancellationMessage text then .cancelPath
  else .fallThrough

/-- Whether the confirmation-stage handler clears the dialog state: it does
on every send-path branch (all-groups, group-not-found, targeted send) and
on the cancel path, and does not when the message falls through. -/
def confirmStageClears (text : String) : Bool :=
  match confirmStage text with
  | .sendPath => true
  | .cancelPath => true
  | .fallThrough => false

/-! ### Concrete scenarios used by the counterexamples and witnesses -/

/-- Transport on which every send succeeds. -/
def okTransport : Transport := ⟨fun _ => true, fun _ => true⟩

/-- Transport on which every send fails. -/
def failingTransport : Transport := ⟨fun _ => false, fun _ => false⟩

/-- Store holding one tracked mention of user 7 by user 9 in chat 100
(message 5, time 1), with user 7 having a registered private chat 900. -/
def oneMentionStore : Store :=
  { trackMention "9" "7" "100" "5" "hey" "Grp" 1 emptyStore with
    privateChat := [("7", "900")] }

/-- Store holding two tracked mentions of user 7 in two different chats,
with no private chat registered for user 7. -/
def twoChatStore : Store :=
  trackMention "9" "7" "200" "6" "yo" "G2" 2
    (trackMention "9" "7" "100" "5" "hey" "G1" 1 emptyStore)

/-- Store after a plain message (no mention entities) from author 3 arrives
in chat 100 at time 5, later than the pending mention of user 7. -/
def otherAuthorStore : Store := onGroupMessage "3" "100" "8" "sup" "Grp" 5 [] oneMentionStore

/-! ### Store lemmas shared by the sweep and mention theorems -/

theorem alGet_alSet_self (l : List (String × α)) (k : String) (v : α) :
    alGet (alSet l k v) k = some v := by
  induction l with
  | nil => simp [alSet, alGet]
  | cons a rest ih =>
    by_cases h : a.1 = k
    · simp [alSet, alGet, h]
    · simp [alSet, alGet, h] at ih ⊢
      exact ih

theorem alGet_alSet_ne (l : List (String × α)) (k k2 : String) (v : α)
    (h : k ≠ k2) : alGet (alSet l k2 v) k = alGet l k := by
  have hk2 : ¬ ((k2 : String) = k) := fun hh => h hh.symm
  induction l with
  | nil => simp [alSet, alGet, hk2]
  | cons a rest ih =>
    by_cases ha : a.1 = k2
    · have hak : ¬ (a.1 = k) := by rw [ha]; exact hk2
      simp [alSet, alGet, ha, hk2, hak]
    · by_cases hk : a.1 = k
      · simp [alSet, alGet, ha, hk, h]
      · simp only [alSet, ha, if_neg] at ih ⊢
        simp [alGet, hk] at ih ⊢
        exact ih

theorem alGet_filter_none (l : List (String × α)) (p : String × α → Bool)
    (k : String) (h : alGet l k = none) : alGet (l.filter p) k = none := by
  induction l with
  | nil => rfl
  | cons a rest ih =>
    have ha : ¬ (a.1 = k) := by
      intro hh
      simp [alGet, List.find?_cons, hh] at h
    have h2 : alGet rest k = none := by
      simpa [alGet, List.find?_cons, ha] using h
    by_cases hp : p a
    · simpa [List.filter_cons, hp, alGet, List.find?_cons, ha] using ih h2
    · simpa [List.filter_cons, hp] using ih h2

theorem alGet_alDel_self (l : List (String × α)) (k : String) :
    alGet (alDel l k) k = none := by
  induction l with
  | nil => rfl
  | cons a rest ih =>
    by_cases ha : a.1 = k
    · simpa [alDel, List.filter_cons, ha] using ih
    · simp [alDel, List.filter_cons, ha, alGet, List.find?_cons] at ih ⊢

theorem alGet_alDel_none (l : List (String × α)) (k k2 : String)
    (h : alGet l k = none) : alGet (alDel l k2) k = none :=
  alGet_filter_none l _ k h

theorem zsetOf_alSet_self (l : List (String × List (String × Nat))) (k : String)
    (v : List (String × Nat)) : zsetOf (alSet l k v) k = v := by
  simp [zsetOf, alGet_alSet_self]

theorem mem_zrem (l : List (String × Nat)) (m : String) (e : String × Nat)
    (h : e ∈ zrem l m) : e ∈ l ∧ e.1 ≠ m := by
  have := List.mem_filter.mp h
  exact ⟨this.1, by simpa using this.2⟩

theorem alGet_hsetStatus_ne (h : List (String × MentionRec)) (k k2 s : String)
    (hk : k ≠ k2) : alGet (hsetStatus h k2 s) k = alGet h k := by
  unfold hsetStatus
  cases alGet h k2 <;> exact alGet_alSet_ne _ _ _ _ hk

theorem alGet_hsetStatus_self (h : List (String × MentionRec)) (k s : String)
    (r : MentionRec) (hr : alGet h k = some r) :
    alGet (hsetStatus h k s) k = some { r with status := s } := by
  unfold hsetStatus
  rw [hr]
  exact alGet_alSet_self _ _ _

theorem mem_collectUnresponded (st : Store) (entries : List (String × Nat))
    (x : String × MentionRec) (h : x ∈ collectUnresponded st entries) :
    x.1 ∈ entries.map (·.1) := by
  unfold collectUnresponded at h
  suffices H : ∀ (es : List (String × Nat)) (acc : List (String × MentionRec)),
      x ∈ es.foldl (fun acc e =>
        match alGet st.mentionHash (mkey (refFst e.1) (refSnd e.1)) with
        | some r => if r.status = "unresponded" then acc ++ [(e.1, r)] else acc
        | none => acc) acc → x ∈ acc ∨ x.1 ∈ es.map (·.1) by
    rcases H entries [] h with hx | hx
    · cases hx
    · exact hx
  intro es
  induction es with
  | nil => intro acc hx; exact Or.inl hx
  | cons e rest ih =>
    intro acc hx
    rw [List.foldl_cons] at hx
    rcases ih _ hx with hx2 | hx2
    · revert hx2
      cases alGet st.mentionHash (mkey (refFst e.1) (refSnd e.1)) with
      | none => exact fun hx2 => Or.inl hx2
      | some r =>
        by_cases hs : r.status = "unresponded"
        · simp only [hs, if_pos, List.mem_append, List.mem_singleton]
          rintro (hx2 | rfl)
          · exact Or.inl hx2
          · exact Or.inr (by simp)
        · simp only [hs, if_neg, if_false]
          exact fun hx2 => Or.inl hx2
    · exact Or.inr (by simp [hx2])

/-! ### Theorems -/

/-- C4: for every inbound message where the classifier nominates exactly
one action with confidence above the threshold (no full validation needed)
and that action's validate returns true, the router invokes that action's
handle and no other action's handle is invoked for that message. -/
theorem router_high_confidence_single_dispatch
    (actions : List RAction) (a : Analysis) (n : String) (act : RAction)
    (hval : a.needsFullValidation = false)
    (hpa : a.potentialActions = [n])
    (hfind : findAction actions n = some act)
    (hv : act.validates = true) :
    invokedHandlers actions a = [n] := by
  unfold findAction at hfind
  have hname : act.name = n := by simpa using List.find?_some hfind
  simp [invokedHandlers, hpa, hval, tryNominated, findAction, hfind, hv, hname]

/-- Witness for C4 at a concrete configuration. -/
theorem router_high_confidence_single_dispatch_witness :
    invokedHandlers [⟨"SEND_TO_GROUP", false⟩, ⟨"POLL", true⟩, ⟨"DEFAULT", true⟩]
      ⟨["POLL"], false⟩ = ["POLL"] :=
  router_high_confidence_single_dispatch _ _ "POLL" ⟨"POLL", true⟩ rfl rfl rfl rfl

/-- C3 counterexample: the classifier nominates POLL, POLL's validate
returns false, and action A (first in declared order) validates — the
claimed declared-order sweep would dispatch to A, but the code dispatches
to DEFAULT. -/
theorem router_no_declared_order_sweep_cex :
    invokedHandlers [⟨"A", true⟩, ⟨"POLL", false⟩, ⟨"DEFAULT", true⟩]
      ⟨["POLL"], false⟩ = ["DEFAULT"]
    ∧ invokedHandlers [⟨"A", true⟩, ⟨"POLL", false⟩, ⟨"DEFAULT", true⟩]
      ⟨["POLL"], false⟩ ≠ ["A"] := by decide

/-- C3 as amended: when the nominated action's validate fails, the
classifier nominated zero actions, or the classifier output is unparsable,
the router skips any per-action sweep and invokes the handler of the
configured DEFAULT action exactly once. -/
theorem router_fallback_default_once
    (actions : List RAction) (a : Analysis) (d : RAction)
    (hfall : a.needsFullValidation = true ∨ a.potentialActions = []
             ∨ tryNominated actions a.potentialActions = none)
    (hd : findAction actions "DEFAULT" = some d) :
    invokedHandlers actions a = [d.name] ∧ d.name = "DEFAULT" := by
  have hd2 : List.find? (fun x => decide (x.name = "DEFAULT")) actions = some d := hd
  have hname : d.name = "DEFAULT" := by simpa using List.find?_some hd2
  refine ⟨?_, hname⟩
  rcases hfall with h | h | h
  · simp [invokedHandlers, h, hd]
  · simp [invokedHandlers, h, hd]
  · by_cases hc : a.needsFullValidation = false ∧ 0 < a.potentialActions.length
    · simp [invokedHandlers, hc, h, hd]
    · simp [invokedHandlers, hc, hd]

/-- Witness for C3 (amended) at a concrete configuration where the
nominated action fails validation. -/
theorem router_fallback_default_once_witness :
    invokedHandlers [⟨"A", true⟩, ⟨"POLL", false⟩, ⟨"DEFAULT", true⟩]
      ⟨["POLL"], false⟩ = ["DEFAULT"] :=
  (router_fallback_default_once
    [⟨"A", true⟩, ⟨"POLL", false⟩, ⟨"DEFAULT", true⟩] ⟨["POLL"], false⟩
    ⟨"DEFAULT", true⟩ (Or.inr (Or.inr (by decide))) (by decide)).1

/-- C7 counterexample: on an input whose first balanced brace span parses,
the code's greedy first-brace-to-last-brace extraction fails and returns
the unparsable result, so the routine does not extract the first balanced
span. -/
theorem greedy_not_first_balanced_cex :
    extractJsonFromResponse "\x7b\"a\":1\x7d x \x7b\"b\":2\x7d" = none
    ∧ specExtractJson "\x7b\"a\":1\x7d x \x7b\"b\":2\x7d"
        = some (Json.obj [("a", Json.num "1")])
    ∧ firstBalancedSpan "\x7b\"a\":1\x7d x \x7b\"b\":2\x7d" = some "\x7b\"a\":1\x7d"
    ∧ greedyBraceSpan "\x7b\"a\":1\x7d x \x7b\"b\":2\x7d"
        = some "\x7b\"a\":1\x7d x \x7b\"b\":2\x7d" :=
  ⟨rfl, rfl, rfl, rfl⟩

/-- C7 as amended: the extraction routine tries a direct parse and then the
greedy span from the first opening brace to the last closing brace,
returning an explicit null result instead of throwing; on the two cited
inputs it behaves exactly as the claim states. -/
theorem extract_json_examples :
    extractJsonFromResponse "Sure! \x7b\"a\":1\x7d thanks"
      = some (Json.obj [("a", Json.num "1")])
    ∧ extractJsonFromResponse "\x7bbroken" = none :=
  ⟨rfl, rfl⟩

/-- C8: the dialog-state read never throws: it returns the explicit absent
value both when nothing is stored for the room and when the persisted
value does not deserialize. -/
theorem get_state_absent_on_missing_or_malformed
    (c : Cache) (roomId : String)
    (h : cacheGet c (stateKey roomId) = none
         ∨ ∃ s, cacheGet c (stateKey roomId) = some s ∧ jsonParse s = none) :
    getSendToGroupState c roomId = none := by
  unfold getSendToGroupState
  rcases h with h | ⟨s, hs, hp⟩
  · rw [h]
  · rw [hs]
    by_cases he : s = ""
    · simp [he]
    · simp [he, hp]

/-- Witness for C8 on a cache holding a malformed persisted state. -/
theorem get_state_absent_on_missing_or_malformed_witness :
    getSendToGroupState [(stateKey "room1", "not json")] "room1" = none :=
  get_state_absent_on_missing_or_malformed _ "room1"
    (Or.inr ⟨"not json", rfl, rfl⟩)

/-- C10: in the confirmation stage, the confirmation test is applied before
the cancellation test, so every message whose lowercased text contains
yes, confirm, or send takes the send path and clears the dialog state,
whatever else the text contains. -/
theorem confirmation_precedes_cancellation (text : String)
    (h : isConfirmationMessage text = true) :
    confirmStage text = .sendPath ∧ confirmStageClears text = true := by
  constructor
  · simp [confirmStage, h]
  · simp [confirmStageClears, confirmStage, h]

/-- Witness for C10: a message that contains both a cancellation word and a
confirmation word still takes the send path. -/
theorem confirmation_precedes_cancellation_witness :
    isConfirmationMessage "no, do not send it" = true
    ∧ isCancellationMessage "no, do not send it" = true
    ∧ confirmStage "no, do not send it" = .sendPath
    ∧ confirmStageClears "no, do not send it" = true := by
  have h : isConfirmationMessage "no, do not send it" = true := by decide
  exact ⟨h, by decide, (confirmation_precedes_cancellation _ h).1,
    (confirmation_precedes_cancellation _ h).2⟩

/-- C1 counterexample: a successful sweep over one pending mention deletes
the mention record and the per-user index entry but leaves the per-chat
index entry in place, a dangling reference to the deleted record. -/
theorem sweep_dangling_chat_index_cex :
    (checkMentionTimeouts okTransport oneMentionStore).2 ≠ []
    ∧ (checkMentionTimeouts okTransport oneMentionStore).1.mentionHash = []
    ∧ zsetOf (checkMentionTimeouts okTransport oneMentionStore).1.userPending "7" = []
    ∧ zsetOf (checkMentionTimeouts okTransport oneMentionStore).1.chatPending "100"
        = [("7:5", 1)] := by decide

/-- C2 counterexample: after a message from author 3 (neither the mentioner
9 nor the mentioned user 7) arrives in chat 100 later than the mention, the
mention's status is still unresponded, not responded, and the next sweep
notifies it. -/
theorem other_author_no_respond_cex :
    (alGet otherAuthorStore.mentionHash "100:5").map MentionRec.status
      = some "unresponded"
    ∧ (alGet otherAuthorStore.mentionHash "100:5").map MentionRec.status
      ≠ some "responded"
    ∧ (sweepUser okTransport otherAuthorStore "7").calls ≠ [] := by decide

/-- C5 counterexample: a user with two still-unresponded pending mentions
in two chats and no registered private chat gets two outbound notification
calls in one sweep cycle, not one. -/
theorem group_fallback_not_single_call_cex :
    (collectUnresponded twoChatStore (zsetOf twoChatStore.userPending "7")).length = 2
    ∧ (checkMentionTimeouts okTransport twoChatStore).2.length = 2
    ∧ (checkMentionTimeouts okTransport twoChatStore).2.length ≠ 1 := by decide

/-- C6 counterexample: with no registered private chat and a transport on
which every group send fails, the sweep still deletes both mention records
and both per-user index entries, so nothing is retried later. -/
theorem group_fallback_deletes_despite_failure_cex :
    (checkMentionTimeouts failingTransport twoChatStore).2.length = 2
    ∧ (checkMentionTimeouts failingTransport twoChatStore).1.mentionHash = []
    ∧ zsetOf (checkMentionTimeouts failingTransport twoChatStore).1.userPending "7"
        = [] := by decide

/-- Store with two pending mentions of user 7 in two chats and a registered
private chat 900 for user 7. -/
def privTwoChatStore : Store :=
  { twoChatStore with privateChat := [("7", "900")] }

/-- C5 as amended: for a user with at least one still-unresponded pending
mention and a registered private chat id, one sweep cycle attempts exactly
one outbound notification call for that user, and that single call lists
every still-unresponded pending mention of the user. -/
theorem private_sweep_single_batched_call
    (tr : Transport) (st : Store) (u p : String)
    (hpriv : alGet st.privateChat u = some p)
    (hne : collectUnresponded st (zsetOf st.userPending u) ≠ []) :
    (sweepUser tr st u).calls
      = [SendCall.toPrivate p
          ((collectUnresponded st (zsetOf st.userPending u)).map (·.2))] := by
  have hni : (collectUnresponded st (zsetOf st.userPending u)).isEmpty = false := by
    simpa [List.isEmpty_iff] using hne
  unfold sweepUser handleUnrespondedMentions
  rw [hpriv]
  by_cases h : tr.privOk p <;> simp [hni, h]

/-- Witness for C5 (amended): both pending mentions of user 7 go out in one
private notification call. -/
theorem private_sweep_single_batched_call_witness :
    (sweepUser okTransport privTwoChatStore "7").calls
      = [SendCall.toPrivate "900"
          ((collectUnresponded privTwoChatStore
            (zsetOf privTwoChatStore.userPending "7")).map (·.2))] :=
  private_sweep_single_batched_call okTransport privTwoChatStore "7" "900"
    (by decide) (by decide)

/-- C6 as amended: when the user has a registered private chat id and the
notification send fails, the sweep deletes nothing — the store is exactly
as before, so the next sweep collects the same mentions again. -/
theorem private_send_failure_no_deletion
    (tr : Transport) (st : Store) (u p : String)
    (hpriv : alGet st.privateChat u = some p)
    (hfail : tr.privOk p = false) :
    (sweepUser tr st u).store = st
    ∧ (sweepUser tr (sweepUser tr st u).store u).notified
        = (sweepUser tr st u).notified := by
  have hs : (sweepUser tr st u).store = st := by
    unfold sweepUser handleUnrespondedMentions
    rw [hpriv]
    by_cases h : (collectUnresponded st (zsetOf st.userPending u)).isEmpty <;>
      simp [h, hfail]
  exact ⟨hs, by rw [hs]⟩

theorem cleanup_fold_chatPending (u : String) (refs : List String) (st : Store) :
    (refs.foldl (cleanupMention u) st).chatPending = st.chatPending := by
  induction refs generalizing st with
  | nil => rfl
  | cons r rest ih =>
    rw [List.foldl_cons, ih]
    rfl

theorem cleanup_fold_hash_none (u : String) (refs : List String) (st : Store)
    (k : String) (h : alGet st.mentionHash k = none) :
    alGet (refs.foldl (cleanupMention u) st).mentionHash k = none := by
  induction refs generalizing st with
  | nil => exact h
  | cons r rest ih =>
    rw [List.foldl_cons]
    exact ih _ (alGet_alDel_none _ _ _ h)

theorem cleanup_fold_hash_deleted (u : String) (refs : List String) (st : Store)
    (ref : String) (h : ref ∈ refs) :
    alGet (refs.foldl (cleanupMention u) st).mentionHash
      (mkey (refFst ref) (refSnd ref)) = none := by
  induction refs generalizing st with
  | nil => cases h
  | cons r rest ih =>
    rw [List.foldl_cons]
    rcases List.mem_cons.mp h with rfl | hmem
    · exact cleanup_fold_hash_none _ _ _ _ (alGet_alDel_self _ _)
    · exact ih _ hmem

theorem cleanup_step_user (u : String) (st : Store) (r : String) :
    zsetOf (cleanupMention u st r).userPending u
      = zrem (zsetOf st.userPending u) r := by
  simp [cleanupMention, zsetOf_alSet_self]

theorem cleanup_fold_user_mono (u : String) (refs : List String) (st : Store)
    (x : String) (h : ∀ e ∈ zsetOf st.userPending u, e.1 ≠ x) :
    ∀ e ∈ zsetOf (refs.foldl (cleanupMention u) st).userPending u, e.1 ≠ x := by
  induction refs generalizing st with
  | nil => exact h
  | cons r rest ih =>
    rw [List.foldl_cons]
    apply ih
    intro e he
    rw [cleanup_step_user] at he
    exact h e (mem_zrem _ _ _ he).1

theorem cleanup_fold_user_removed (u : String) (refs : List String) (st : Store)
    (ref : String) (h : ref ∈ refs) :
    ∀ e ∈ zsetOf (refs.foldl (cleanupMention u) st).userPending u, e.1 ≠ ref := by
  induction refs generalizing st with
  | nil => cases h
  | cons r rest ih =>
    rw [List.foldl_cons]
    rcases List.mem_cons.mp h with rfl | hmem
    · apply cleanup_fold_user_mono
      intro e he
      rw [cleanup_step_user] at he
      exact (mem_zrem _ _ _ he).2
    · exact ih _ hmem

/-- C1 as amended: for every pending mention that the sweep successfully
notifies (private-chat path), the sweep deletes the mention's record and
removes its entry from the per-user pending index, but it does not touch
the per-chat pending index at all — the per-chat entry of every notified
mention remains behind, pointing at the deleted record. -/
theorem sweep_success_cleanup
    (tr : Transport) (st : Store) (u p : String)
    (hpriv : alGet st.privateChat u = some p)
    (hok : tr.privOk p = true) :
    (sweepUser tr st u).store.chatPending = st.chatPending
    ∧ ∀ pr ∈ (sweepUser tr st u).notified,
        alGet (sweepUser tr st u).store.mentionHash
          (mkey (refFst pr.1) (refSnd pr.1)) = none
        ∧ ∀ e ∈ zsetOf (sweepUser tr st u).store.userPending u, e.1 ≠ pr.1 := by
  by_cases hni : (collectUnresponded st (zsetOf st.userPending u)).isEmpty
  · have heq : sweepUser tr st u
        = ⟨st, [], collectUnresponded st (zsetOf st.userPending u)⟩ := by
      unfold sweepUser
      simp [hni]
    have hcol : collectUnresponded st (zsetOf st.userPending u) = [] :=
      List.isEmpty_iff.mp hni
    rw [heq]
    refine ⟨rfl, ?_⟩
    rw [hcol]
    intro pr hpr
    cases hpr
  · have heq : sweepUser tr st u
        = ⟨((collectUnresponded st (zsetOf st.userPending u)).map (·.1)).foldl
            (cleanupMention u) st,
           [SendCall.toPrivate p
             ((collectUnresponded st (zsetOf st.userPending u)).map (·.2))],
           collectUnresponded st (zsetOf st.userPending u)⟩ := by
      unfold sweepUser handleUnrespondedMentions
      rw [hpriv]
      simp [hni, hok]
    rw [heq]
    refine ⟨cleanup_fold_chatPending _ _ _, ?_⟩
    intro pr hpr
    have hmem : pr.1 ∈ (collectUnresponded st (zsetOf st.userPending u)).map (·.1) :=
      List.mem_map_of_mem _ hpr
    exact ⟨cleanup_fold_hash_deleted _ _ _ _ hmem,
      cleanup_fold_user_removed _ _ _ _ hmem⟩

theorem mkey_right_inj (c a b : String) (h : mkey c a = mkey c b) : a = b := by
  have hd := congrArg String.data h
  simp only [mkey, String.data_append] at hd
  exact String.ext (List.append_cancel_left hd)

theorem readStep_hash_other (B chat : String) (st : Store) (r : String)
    (k : String) (hk : refFst r = chat → ¬ k = mkey chat (refSnd r)) :
    alGet (readStep B chat st r).mentionHash k = alGet st.mentionHash k := by
  unfold readStep
  by_cases hr : refFst r = chat
  · simp only [hr, if_pos]
    exact alGet_hsetStatus_ne _ _ _ _ (hk hr)
  · simp [hr]

theorem readStep_hash_hit (B chat m : String) (st : Store) (r : String)
    (hr : refFst r = chat) (hm : refSnd r = m) (rec : MentionRec)
    (hget : alGet st.mentionHash (mkey chat m) = some rec) :
    alGet (readStep B chat st r).mentionHash (mkey chat m)
      = some { rec with status := "read" } := by
  unfold readStep
  simp only [hr, if_pos, hm]
  exact alGet_hsetStatus_self _ _ _ _ hget

theorem read_fold_status (B chat m : String) (rec : MentionRec) :
    ∀ (refs : List (String × Nat)) (st : Store),
      (alGet st.mentionHash (mkey chat m) = some rec
        ∨ alGet st.mentionHash (mkey chat m) = some { rec with status := "read" }) →
      ((∃ e ∈ refs, refFst e.1 = chat ∧ refSnd e.1 = m)
        ∨ alGet st.mentionHash (mkey chat m) = some { rec with status := "read" }) →
      alGet ((refs.foldl (fun s e => readStep B chat s e.1) st)).mentionHash
        (mkey chat m) = some { rec with status := "read" } := by
  intro refs
  induction refs with
  | nil =>
    intro st _ hdone
    rcases hdone with ⟨e, he, _⟩ | hdone
    · cases he
    · exact hdone
  | cons e0 rest ih =>
    intro st hval hdone
    rw [List.foldl_cons]
    by_cases hhit : refFst e0.1 = chat ∧ refSnd e0.1 = m
    · have hstep : alGet (readStep B chat st e0.1).mentionHash (mkey chat m)
          = some { rec with status := "read" } := by
        rcases hval with hv | hv
        · exact readStep_hash_hit B chat m st e0.1 hhit.1 hhit.2 rec hv
        · have := readStep_hash_hit B chat m st e0.1 hhit.1 hhit.2 _ hv
          simpa using this
      exact ih _ (Or.inr hstep) (Or.inr hstep)
    · have hother : alGet (readStep B chat st e0.1).mentionHash (mkey chat m)
          = alGet st.mentionHash (mkey chat m) := by
        apply readStep_hash_other
        intro hr hkeq
        exact hhit ⟨hr, mkey_right_inj _ _ _ hkeq.symm ▸ rfl⟩
      rcases hdone with ⟨e1, he1, hp⟩ | hdone
      · rcases List.mem_cons.mp he1 with rfl | hmem
        · exact absurd hp hhit
        · exact ih _ (hother ▸ hval) (Or.inl ⟨e1, hmem, hp⟩)
      · exact ih _ (hother ▸ hval) (Or.inr (hother ▸ hdone))

theorem readStep_user_sub (B chat : String) (st : Store) (r : String) :
    ∀ e ∈ zsetOf (readStep B chat st r).userPending B,
      e ∈ zsetOf st.userPending B := by
  unfold readStep
  by_cases hr : refFst r = chat
  · simp only [hr, if_pos, zsetOf_alSet_self]
    intro e he
    exact (mem_zrem _ _ _ he).1
  · simp [hr]

theorem read_fold_user_mono (B chat : String) (refs : List (String × Nat))
    (st : Store) (x : String)
    (h : ∀ e ∈ zsetOf st.userPending B, e.1 ≠ x) :
    ∀ e ∈ zsetOf ((refs.foldl (fun s e => readStep B chat s e.1) st)).userPending B,
      e.1 ≠ x := by
  induction refs generalizing st with
  | nil => exact h
  | cons r rest ih =>
    rw [List.foldl_cons]
    exact ih _ (fun e he => h e (readStep_user_sub B chat st r.1 e he))

theorem read_fold_user_removed (B chat : String) (refs : List (String × Nat))
    (st : Store) (ref : String)
    (h : ∃ e ∈ refs, e.1 = ref) (hc : refFst ref = chat) :
    ∀ e ∈ zsetOf ((refs.foldl (fun s e => readStep B chat s e.1) st)).userPending B,
      e.1 ≠ ref := by
  induction refs generalizing st with
  | nil =>
    rcases h with ⟨e, he, _⟩
    cases he
  | cons e0 rest ih =>
    rw [List.foldl_cons]
    rcases h with ⟨e1, he1, hp⟩
    rcases List.mem_cons.mp he1 with rfl | hmem
    · apply read_fold_user_mono
      rw [hp]
      unfold readStep
      simp only [hc, if_pos, zsetOf_alSet_self]
      intro e he
      exact (mem_zrem _ _ _ he).2
    · exact ih _ ⟨e1, hmem, hp⟩

theorem readStep_chat_sub (B chat : String) (st : Store) (r : String) :
    ∀ e ∈ zsetOf (readStep B chat st r).chatPending chat,
      e ∈ zsetOf st.chatPending chat := by
  unfold readStep
  by_cases hr : refFst r = chat
  · simp only [hr, if_pos, zsetOf_alSet_self]
    intro e he
    exact (mem_zrem _ _ _ he).1
  · simp [hr]

theorem read_fold_chat_mono (B chat : String) (refs : List (String × Nat))
    (st : Store) (x : String)
    (h : ∀ e ∈ zsetOf st.chatPending chat, e.1 ≠ x) :
    ∀ e ∈ zsetOf ((refs.foldl (fun s e => readStep B chat s e.1) st)).chatPending chat,
      e.1 ≠ x := by
  induction refs generalizing st with
  | nil => exact h
  | cons r rest ih =>
    rw [List.foldl_cons]
    exact ih _ (fun e he => h e (readStep_chat_sub B chat st r.1 e he))

theorem read_fold_chat_removed (B chat m : String) (refs : List (String × Nat))
    (st : Store) (ref : String)
    (h : ∃ e ∈ refs, e.1 = ref) (hc : refFst ref = chat) (hm : refSnd ref = m) :
    ∀ e ∈ zsetOf ((refs.foldl (fun s e => readStep B chat s e.1) st)).chatPending chat,
      e.1 ≠ mkey B m := by
  induction refs generalizing st with
  | nil =>
    rcases h with ⟨e, he, _⟩
    cases he
  | cons e0 rest ih =>
    rw [List.foldl_cons]
    rcases h with ⟨e1, he1, hp⟩
    rcases List.mem_cons.mp he1 with rfl | hmem
    · apply read_fold_chat_mono
      rw [hp]
      unfold readStep
      simp only [hc, if_pos, zsetOf_alSet_self, hm]
      intro e he
      exact (mem_zrem _ _ _ he).2
    · exact ih _ ⟨e1, hmem, hp⟩

theorem sweepUser_notified (tr : Transport) (st : Store) (u : String) :
    (sweepUser tr st u).notified
      = collectUnresponded st (zsetOf st.userPending u) := by
  unfold sweepUser
  by_cases hni : (collectUnresponded st (zsetOf st.userPending u)).isEmpty
  · simp [hni]
  · simp only [hni, if_neg, Bool.not_eq_true]
    cases handleUnrespondedMentions tr st u
      ((collectUnresponded st (zsetOf st.userPending u)).map (·.2)) <;> simp

/-- C2 as amended: on the message path a pending mention is closed out only
when the mentioned user themself sends a message in the chat; the record's
status then becomes read (not responded), the mention is removed from both
the per-user and the per-chat pending indexes before the next sweep, and
that sweep does not notify it. -/
theorem message_path_read_closure
    (st : Store) (tr : Transport) (B chat m ref : String) (rec : MentionRec)
    (hs : ∃ e ∈ zsetOf st.userPending B, e.1 = ref)
    (hfst : refFst ref = chat) (hsnd : refSnd ref = m)
    (hrec : alGet st.mentionHash (mkey chat m) = some rec) :
    alGet (markMentionsAsRead B chat st).mentionHash (mkey chat m)
      = some { rec with status := "read" }
    ∧ (∀ e ∈ zsetOf (markMentionsAsRead B chat st).userPending B, e.1 ≠ ref)
    ∧ (∀ e ∈ zsetOf (markMentionsAsRead B chat st).chatPending chat,
        e.1 ≠ mkey B m)
    ∧ ∀ pr ∈ (sweepUser tr (markMentionsAsRead B chat st) B).notified,
        pr.1 ≠ ref := by
  rcases hs with ⟨e0, he0, hp0⟩
  have hremoved : ∀ e ∈ zsetOf (markMentionsAsRead B chat st).userPending B,
      e.1 ≠ ref :=
    read_fold_user_removed B chat _ st ref ⟨e0, he0, hp0⟩ hfst
  refine ⟨?_, hremoved, ?_, ?_⟩
  · exact read_fold_status B chat m rec _ st (Or.inl hrec)
      (Or.inl ⟨e0, he0, hp0 ▸ ⟨hfst, hsnd⟩⟩)
  · exact read_fold_chat_removed B chat m _ st ref ⟨e0, he0, hp0⟩ hfst hsnd
  · intro pr hpr
    rw [sweepUser_notified] at hpr
    have hmem := mem_collectUnresponded _ _ _ hpr
    rcases List.mem_map.mp hmem with ⟨e, he, heq⟩
    rw [← heq]
    exact hremoved e he

/-- Witness for C2 (amended): the mentioned user 7 speaks in chat 100; the
pending mention is marked read, vanishes from both indexes, and the sweep
stays silent on it. -/
theorem message_path_read_closure_witness :
    alGet (markMentionsAsRead "7" "100" oneMentionStore).mentionHash
      (mkey "100" "5")
      = some { mentioner := "9", mentionedId := "7", chat := "100",
               message := "5", text := "hey", timestamp := "1", title := "Grp",
               status := "read" }
    ∧ (∀ e ∈ zsetOf (markMentionsAsRead "7" "100" oneMentionStore).userPending "7",
        e.1 ≠ "100:5")
    ∧ (∀ e ∈ zsetOf (markMentionsAsRead "7" "100" oneMentionStore).chatPending "100",
        e.1 ≠ mkey "7" "5")
    ∧ ∀ pr ∈ (sweepUser okTransport
        (markMentionsAsRead "7" "100" oneMentionStore) "7").notified,
        pr.1 ≠ "100:5" :=
  message_path_read_closure oneMentionStore okTransport "7" "100" "5" "100:5"
    ⟨"9", "7", "100", "5", "hey", "1", "Grp", "unresponded"⟩
    ⟨("100:5", 1), by decide, rfl⟩ (by decide) (by decide) (by decide)

/-- Witness for C1 (amended) on the one-mention store: the sweep leaves the
per-chat index exactly as it was while deleting the record and the
per-user entry. -/
theorem sweep_success_cleanup_witness :
    (sweepUser okTransport oneMentionStore "7").store.chatPending
        = oneMentionStore.chatPending
    ∧ ∀ pr ∈ (sweepUser okTransport oneMentionStore "7").notified,
        alGet (sweepUser okTransport oneMentionStore "7").store.mentionHash
          (mkey (refFst pr.1) (refSnd pr.1)) = none
        ∧ ∀ e ∈ zsetOf (sweepUser okTransport oneMentionStore "7").store.userPending "7",
            e.1 ≠ pr.1 :=
  sweep_success_cleanup okTransport oneMentionStore "7" "900" (by decide) (by decide)

/-- Witness for C6 (amended) on a concrete store with a failing private
send. -/
theorem private_send_failure_no_deletion_witness :
    (sweepUser failingTransport privTwoChatStore "7").store = privTwoChatStore
    ∧ (sweepUser failingTransport
        (sweepUser failingTransport privTwoChatStore "7").store "7").notified
      = (sweepUser failingTransport privTwoChatStore "7").notified :=
  private_send_failure_no_deletion failingTransport privTwoChatStore "7" "900"
    (by decide) (by decide)

/-! ### Round-trip of the persisted dialog state (for C9)

`JSON.stringify` escapes nothing in a string containing only characters
that are not a quote, not a backslash, and not a control character; the
round-trip theorem quantifies over states whose string fields are such
well-formed strings. -/

/-- A character `JSON.stringify` prints verbatim inside a string literal. -/
def wfChar (c : Char) : Bool := decide (c ≠ '"' ∧ c ≠ '\\' ∧ 32 ≤ c.toNat)

/-- A string of well-formed characters. -/
def wfStr (s : String) : Bool := s.data.all wfChar

theorem ne_of_toNat_ne (c d : Char) (h : c.toNat ≠ d.toNat) : ¬ c = d :=
  fun he => h (congrArg Char.toNat he)

theorem escape_wf (c : Char) (h : wfChar c = true) : escapeJsonChar c = [c] := by
  obtain ⟨h1, h2, h3⟩ := of_decide_eq_true h
  have hn : ¬ c = '\n' := fun he => by rw [he] at h3; exact absurd h3 (by decide)
  have hr : ¬ c = '\r' := fun he => by rw [he] at h3; exact absurd h3 (by decide)
  have ht : ¬ c = '\t' := fun he => by rw [he] at h3; exact absurd h3 (by decide)
  have h8 : ¬ c.toNat = 8 := by omega
  have h12 : ¬ c.toNat = 12 := by omega
  have hlt : ¬ c.toNat < 32 := by omega
  simp [escapeJsonChar, h1, h2, hn, hr, ht, h8, h12, hlt]

theorem flatten_escape_wf (l : List Char) (h : l.all wfChar = true) :
    (l.map escapeJsonChar).flatten = l := by
  induction l with
  | nil => rfl
  | cons c cs ih =>
    rw [List.all_cons, Bool.and_eq_true] at h
    simp [escape_wf c h.1, ih h.2]

theorem printStr_wf (s : String) (h : wfStr s = true) :
    printStr s = '"' :: (s.data ++ ['"']) := by
  unfold printStr
  rw [flatten_escape_wf _ h]
  simp

theorem skipWs_cons (c : Char) (l : List Char) (h : isWsChar c = false) :
    skipWs (c :: l) = c :: l := by
  unfold skipWs
  rw [h]
  simp

theorem parseStringBody_wf (l : List Char) (rest : List Char)
    (h : l.all wfChar = true) :
    parseStringBody (l ++ '"' :: rest) = some (l, rest) := by
  induction l with
  | nil =>
    show parseStringBody ('"' :: rest) = some ([], rest)
    unfold parseStringBody
    simp
  | cons c cs ih =>
    rw [List.all_cons, Bool.and_eq_true] at h
    obtain ⟨h1, h2, h3⟩ := of_decide_eq_true h.1
    have ihs := ih h.2
    show parseStringBody (c :: (cs ++ '"' :: rest)) = _
    unfold parseStringBody
    rw [if_neg h1, if_neg h2, if_neg (by omega), ihs]
    rfl

theorem parseValue_cons (fuel : Nat) (c : Char) (l : List Char)
    (h : isWsChar c = false) :
    parseValue (fuel + 1) (c :: l)
      = (if c = '"' then
           match parseStringBody l with
           | some (s, r) => some (Json.str ⟨s⟩, r)
           | none => none
         else if c = lbrace then parseMembers fuel (skipWs l) true
         else if c = '[' then parseElems fuel (skipWs l) true
         else if c = 't' then
           match l with
           | 'r' :: 'u' :: 'e' :: r => some (Json.bool true, r)
           | _ => none
         else if c = 'f' then
           match l with
           | 'a' :: 'l' :: 's' :: 'e' :: r => some (Json.bool false, r)
           | _ => none
         else if c = 'n' then
           match l with
           | 'u' :: 'l' :: 'l' :: r => some (Json.null, r)
           | _ => none
         else
           match parseNumber (c :: l) with
           | some (raw, r) => some (Json.num ⟨raw⟩, r)
           | none => none) := by
  unfold parseValue
  rw [skipWs_cons _ _ h]

theorem parseValue_str (s : String) (rest : List Char) (fuel : Nat)
    (h : wfStr s = true) :
    parseValue (fuel + 1) (printStr s ++ rest) = some (.str s, rest) := by
  rw [printStr_wf s h]
  rw [show ('"' :: (s.data ++ ['"'])) ++ rest = '"' :: (s.data ++ '"' :: rest) by simp]
  rw [parseValue_cons _ _ _ (by decide), if_pos rfl,
    parseStringBody_wf s.data rest h]

theorem isDigit_bounds (c : Char) (h : isDigit c = true) :
    48 ≤ c.toNat ∧ c.toNat ≤ 57 := by
  simpa [isDigit] using h

theorem digit_char_toNat : ∀ r < 10, (Char.ofNat (48 + r)).toNat = 48 + r := by decide

theorem isDigit_digit_char : ∀ r < 10, isDigit (Char.ofNat (48 + r)) = true := by decide

theorem natCharsAux_all_digits (f : Nat) : ∀ n, (natCharsAux f n).all isDigit = true := by
  induction f with
  | zero => intro n; rfl
  | succ f ih =>
    intro n
    cases n with
    | zero => rfl
    | succ m =>
      show (Char.ofNat (48 + (m + 1) % 10) :: natCharsAux f ((m + 1) / 10)).all
        isDigit = true
      rw [List.all_cons, isDigit_digit_char _ (Nat.mod_lt _ (by omega)), ih]
      rfl

theorem natCharsAux_msd (f : Nat) : ∀ n, 0 < n → n ≤ f →
    ∃ l r, natCharsAux f n = l ++ [Char.ofNat (48 + r)] ∧ 0 < r ∧ r < 10 := by
  induction f with
  | zero => intro n h1 h2; omega
  | succ f ih =>
    intro n h1 h2
    match n, h1 with
    | m + 1, _ =>
      by_cases hq : (m + 1) / 10 = 0
      · refine ⟨[], (m + 1) % 10, ?_, ?_, Nat.mod_lt _ (by omega)⟩
        · show Char.ofNat (48 + (m + 1) % 10) :: natCharsAux f ((m + 1) / 10) = _
          rw [hq]
          cases f <;> rfl
        · have hlt : m + 1 < 10 := by omega
          rw [Nat.mod_eq_of_lt hlt]
          omega
      · have hq1 : 0 < (m + 1) / 10 := Nat.pos_of_ne_zero hq
        have hq2 : (m + 1) / 10 ≤ f := by
          have := Nat.div_lt_self (show 0 < m + 1 by omega) (show 1 < 10 by omega)
          omega
        obtain ⟨l, r, hl, hr0, hr10⟩ := ih _ hq1 hq2
        refine ⟨Char.ofNat (48 + (m + 1) % 10) :: l, r, ?_, hr0, hr10⟩
        show Char.ofNat (48 + (m + 1) % 10) :: natCharsAux f ((m + 1) / 10) = _
        rw [hl]
        rfl

/-- Digit lexemes acceptable as the raw text of a `Json.num` produced by
serializing a natural number: nonempty, all digits, no leading zero except
for zero itself. -/
def digitsOk (raw : String) : Bool :=
  !raw.data.isEmpty && raw.data.all isDigit
    && (raw.data.length == 1 || !(raw.data.headD ' ' == '0'))

theorem digitsOk_natChars (n : Nat) : digitsOk ⟨natChars n⟩ = true := by
  by_cases h0 : n = 0
  · subst h0; decide
  · unfold natChars
    rw [if_neg h0]
    obtain ⟨l, r, hl, hr0, hr10⟩ :=
      natCharsAux_msd (n + 1) n (Nat.pos_of_ne_zero h0) (by omega)
    rw [hl, List.reverse_append]
    unfold digitsOk
    have hhead : (Char.ofNat (48 + r)).toNat = 48 + r := digit_char_toNat r hr10
    have h48 : ('0').toNat = 48 := rfl
    have hne0 : ¬ (Char.ofNat (48 + r) = '0') :=
      ne_of_toNat_ne _ _ (by rw [hhead, h48]; omega)
    have hall : ([Char.ofNat (48 + r)].reverse ++ l.reverse).all isDigit = true := by
      rw [← List.reverse_append, ← hl, List.all_reverse]
      exact natCharsAux_all_digits _ _
    simp only [List.reverse_singleton] at hall ⊢
    simp at hall
    simp [hne0, hall.1]
    exact hall.2

theorem dropWhile_all (p : α → Bool) (l : List α) (h : l.all p = true) :
    l.dropWhile p = [] := by
  induction l with
  | nil => rfl
  | cons a l ih =>
    rw [List.all_cons, Bool.and_eq_true] at h
    rw [List.dropWhile_cons, h.1]
    exact ih h.2

theorem takeWhile_append_all (p : α → Bool) (l rest : List α)
    (hl : l.all p = true)
    (hr : match rest with | [] => True | c :: _ => p c = false) :
    (l ++ rest).takeWhile p = l := by
  induction l with
  | nil =>
    cases rest with
    | nil => rfl
    | cons c cs => simpa [List.takeWhile_cons] using hr
  | cons a l ih =>
    rw [List.all_cons, Bool.and_eq_true] at hl
    simp [List.takeWhile_cons, hl.1, ih hl.2]

theorem validNum_cons (c : Char) (cs : List Char) :
    validNum (c :: cs)
      = (match vInt (if c = '-' then cs else c :: cs) with
         | none => false
         | some r1 =>
           match vFrac r1 with
           | none => false
           | some r2 =>
             match vExp r2 with
             | none => false
             | some r3 => r3.isEmpty) := rfl

theorem vInt_cons (c : Char) (r : List Char) :
    vInt (c :: r)
      = (if c = '0' then
           match r with
           | d :: _ => if isDigit d then none else some r
           | [] => some []
         else if isDigit c then some (r.dropWhile isDigit) else none) := rfl

theorem validNum_digits (l : List Char) (hne : ¬ l.isEmpty = true)
    (hall : l.all isDigit = true)
    (hhead : l.length == 1 || !(l.headD ' ' == '0')) : validNum l = true := by
  match l with
  | [] => exact absurd rfl hne
  | c :: cs =>
    rw [List.all_cons, Bool.and_eq_true] at hall
    obtain ⟨hb1, hb2⟩ := isDigit_bounds c hall.1
    have h45 : ('-').toNat = 45 := rfl
    have hminus : ¬ c = '-' := ne_of_toNat_ne _ _ (by rw [h45]; omega)
    by_cases h0 : c = '0'
    · have hlen : cs = [] := by
        rcases Bool.or_eq_true _ _|>.mp hhead with hh | hh
        · cases cs with
          | nil => rfl
          | cons d ds => simp at hh
        · subst h0
          simp at hh
      subst h0 hlen
      decide
    · rw [validNum_cons, if_neg hminus, vInt_cons, if_neg h0, if_pos hall.1,
        dropWhile_all _ _ hall.2]
      rfl

/-- The tail following a number lexeme must not begin with a character the
number scanner would consume. -/
def headNotNum : List Char → Prop
  | [] => True
  | c :: _ => numChar c = false

theorem numChar_of_digit (c : Char) (h : isDigit c = true) : numChar c = true := by
  unfold numChar
  rw [h]
  rfl

theorem all_numChar_of_digits (l : List Char) (h : l.all isDigit = true) :
    l.all numChar = true := by
  induction l with
  | nil => rfl
  | cons d ds ih =>
    rw [List.all_cons, Bool.and_eq_true] at h
    rw [List.all_cons, Bool.and_eq_true]
    exact ⟨numChar_of_digit d h.1, ih h.2⟩

theorem parseValue_num (raw : String) (rest : List Char) (fuel : Nat)
    (hd : digitsOk raw = true) (hrest : headNotNum rest) :
    parseValue (fuel + 1) (raw.data ++ rest) = some (.num raw, rest) := by
  unfold digitsOk at hd
  rw [Bool.and_eq_true, Bool.and_eq_true] at hd
  obtain ⟨⟨hne, hall⟩, hhead⟩ := hd
  cases hdata : raw.data with
  | nil => rw [hdata] at hne; simp at hne
  | cons c cs =>
    rw [hdata] at hall hhead
    have hallc := hall
    rw [List.all_cons, Bool.and_eq_true] at hallc
    obtain ⟨hb1, hb2⟩ := isDigit_bounds c hallc.1
    have hws : isWsChar c = false := by
      have h1 : ¬ c = ' ' := ne_of_toNat_ne _ _ (by rw [show (' ').toNat = 32 from rfl]; omega)
      have h2 : ¬ c = '\t' := ne_of_toNat_ne _ _ (by rw [show ('\t').toNat = 9 from rfl]; omega)
      have h3 : ¬ c = '\n' := ne_of_toNat_ne _ _ (by rw [show ('\n').toNat = 10 from rfl]; omega)
      have h4 : ¬ c = '\r' := ne_of_toNat_ne _ _ (by rw [show ('\r').toNat = 13 from rfl]; omega)
      simp [isWsChar, h1, h2, h3, h4]
    rw [List.cons_append, parseValue_cons _ _ _ hws,
      if_neg (ne_of_toNat_ne c '"' (by rw [show ('"').toNat = 34 from rfl]; omega)),
      if_neg (ne_of_toNat_ne c lbrace (by rw [show lbrace.toNat = 123 from rfl]; omega)),
      if_neg (ne_of_toNat_ne c '[' (by rw [show ('[').toNat = 91 from rfl]; omega)),
      if_neg (ne_of_toNat_ne c 't' (by rw [show ('t').toNat = 116 from rfl]; omega)),
      if_neg (ne_of_toNat_ne c 'f' (by rw [show ('f').toNat = 102 from rfl]; omega)),
      if_neg (ne_of_toNat_ne c 'n' (by rw [show ('n').toNat = 110 from rfl]; omega))]
    unfold parseNumber
    have htw : ((c :: cs) ++ rest).takeWhile numChar = c :: cs := by
      apply takeWhile_append_all
      · exact all_numChar_of_digits _ hall
      · cases rest with
        | nil => trivial
        | cons r rs =>
          have : numChar r = false := hrest
          simpa using this
    rw [show c :: (cs ++ rest) = (c :: cs) ++ rest from rfl, htw]
    have hvn : validNum (c :: cs) = true := by
      apply validNum_digits
      · simp
      · exact hall
      · exact hhead
    rw [if_pos hvn, List.drop_left]
    show some (Json.num ⟨c :: cs⟩, rest) = some (Json.num raw, rest)
    rw [show (⟨c :: cs⟩ : String) = raw by rw [← hdata]]

theorem skipWs_quote (l : List Char) : skipWs ('"' :: l) = '"' :: l :=
  skipWs_cons _ _ (by decide)

theorem skipWs_colon (l : List Char) : skipWs (':' :: l) = ':' :: l :=
  skipWs_cons _ _ (by decide)

theorem skipWs_comma (l : List Char) : skipWs (',' :: l) = ',' :: l :=
  skipWs_cons _ _ (by decide)

theorem skipWs_rbrace (l : List Char) : skipWs (rbrace :: l) = rbrace :: l :=
  skipWs_cons _ _ (by decide)

theorem parseMembers_quote (fuel : Nat) (l : List Char) (b : Bool) :
    parseMembers (fuel + 1) ('"' :: l) b
      = (match parseStringBody l with
         | none => none
         | some (k, r1) =>
           match skipWs r1 with
           | ':' :: r2 =>
             match parseValue fuel r2 with
             | none => none
             | some (v, r3) =>
               match skipWs r3 with
               | [] => none
               | c2 :: r4 =>
                 if c2 = ',' then
                   match parseMembers fuel (skipWs r4) false with
                   | some (.obj ms, r5) => some (.obj ((⟨k⟩, v) :: ms), r5)
                   | _ => none
                 else if c2 = rbrace then some (.obj [(⟨k⟩, v)], r4)
                 else none
           | _ => none) := by
  cases b <;> rfl

/-- A member list headed by any member prints to text whose first
significant character is a quote, so leading-whitespace skipping is the
identity on it. -/
theorem skipWs_printMembers (ms : List (String × Json)) (x : List Char)
    (hne : ms ≠ []) :
    skipWs (printMembersJ ms ++ x) = printMembersJ ms ++ x := by
  match ms with
  | m2 :: t =>
    cases t <;> simp [printMembersJ, printStr, List.cons_append, skipWs_quote]

/-- Fuel needed by `parseMembers` on a printed member list, given a fuel
measure for the member values. -/
def mfuel (need : Json → Nat) : List (String × Json) → Nat
  | [] => 1
  | m :: rest => need m.2 + mfuel need rest + 1

theorem mfuel_pos (need : Json → Nat) (ms : List (String × Json)) :
    1 ≤ mfuel need ms := by
  cases ms <;> simp [mfuel]

/-- Tails acceptable after a printed member value: the next character is a
comma or a closing brace, or the input ends. -/
def restHeadOk : List Char → Prop
  | [] => True
  | c :: _ => c = ',' ∨ c = rbrace

theorem parseMembers_print
    (P : Json → Bool) (need : Json → Nat)
    (hval : ∀ v fuel rest, P v = true → need v ≤ fuel → restHeadOk rest →
        parseValue fuel (printJson v ++ rest) = some (v, rest)) :
    ∀ (ms : List (String × Json)) (fuel : Nat) (rest : List Char) (b : Bool),
      (∀ m ∈ ms, wfStr m.1 = true ∧ P m.2 = true) →
      mfuel need ms ≤ fuel → (ms = [] → b = true) →
      parseMembers fuel (printMembersJ ms ++ rbrace :: rest) b
        = some (.obj ms, rest) := by
  intro ms
  induction ms with
  | nil =>
    intro fuel rest b _ hf hb
    match fuel, hf with
    | f + 1, _ =>
      rw [hb rfl]
      rfl
  | cons m ms' ih =>
    obtain ⟨k, v⟩ := m
    intro fuel rest b hm hf hb
    rw [show mfuel need ((k, v) :: ms') = need v + mfuel need ms' + 1 from rfl] at hf
    have hms' := mfuel_pos need ms'
    match fuel, (show 1 ≤ fuel by omega) with
    | f + 1, _ =>
      have hneed : need v ≤ f := by omega
      have hfms : mfuel need ms' ≤ f := by omega
      have hk : wfStr k = true := (hm (k, v) (by simp)).1
      have hPv : P v = true := (hm (k, v) (by simp)).2
      cases ms' with
      | nil =>
        rw [show printMembersJ [(k, v)] ++ rbrace :: rest
            = printStr k ++ (':' :: (printJson v ++ rbrace :: rest)) by
          simp [printMembersJ]]
        rw [printStr_wf k hk,
          show ('"' :: (k.data ++ ['"'])) ++ (':' :: (printJson v ++ rbrace :: rest))
            = '"' :: (k.data ++ '"' :: (':' :: (printJson v ++ rbrace :: rest))) by
          simp]
        rw [parseMembers_quote, parseStringBody_wf k.data _ hk]
        simp only []
        rw [skipWs_colon]
        simp only []
        rw [hval v f (rbrace :: rest) hPv hneed (Or.inr rfl)]
        simp only []
        rw [skipWs_rbrace]
        simp only []
        rw [if_neg (show ¬ (rbrace = ',') by decide), if_pos trivial]
      | cons m2 t =>
        rw [show printMembersJ ((k, v) :: m2 :: t) ++ rbrace :: rest
            = printStr k ++ (':' :: (printJson v
                ++ ',' :: (printMembersJ (m2 :: t) ++ rbrace :: rest))) by
          simp [printMembersJ]]
        rw [printStr_wf k hk,
          show ('"' :: (k.data ++ ['"'])) ++ (':' :: (printJson v
                ++ ',' :: (printMembersJ (m2 :: t) ++ rbrace :: rest)))
            = '"' :: (k.data ++ '"' :: (':' :: (printJson v
                ++ ',' :: (printMembersJ (m2 :: t) ++ rbrace :: rest)))) by
          simp]
        rw [parseMembers_quote, parseStringBody_wf k.data _ hk]
        simp only []
        rw [skipWs_colon]
        simp only []
        rw [hval v f (',' :: (printMembersJ (m2 :: t) ++ rbrace :: rest)) hPv hneed
          (Or.inl rfl)]
        simp only []
        rw [skipWs_comma]
        simp only []
        rw [if_pos trivial, skipWs_printMembers _ _ (by simp),
          ih f rest false (fun x hx => hm x (List.mem_cons_of_mem _ hx)) hfms
            (by simp)]

/-- Values appearing immediately inside a serialized `messageDetails`
payload: well-formed strings and digit lexemes. -/
def flatVal : Json → Bool
  | .str s => wfStr s
  | .num raw => digitsOk raw
  | _ => false

theorem flat_hval : ∀ (v : Json) (fuel : Nat) (rest : List Char),
    flatVal v = true → 1 ≤ fuel → restHeadOk rest →
    parseValue fuel (printJson v ++ rest) = some (v, rest) := by
  intro v fuel rest hv hf hr
  match fuel, hf with
  | f + 1, _ =>
    cases v with
    | str s => exact parseValue_str s rest f hv
    | num raw =>
      apply parseValue_num raw rest f hv
      cases rest with
      | nil => trivial
      | cons c cs =>
        rcases hr with h | h <;> subst h
        · show numChar ',' = false
          decide
        · show numChar rbrace = false
          decide
    | null => exact absurd hv (by simp [flatVal])
    | bool b2 => exact absurd hv (by simp [flatVal])
    | arr es => exact absurd hv (by simp [flatVal])
    | obj ms => exact absurd hv (by simp [flatVal])

theorem parseValue_obj
    (P : Json → Bool) (need : Json → Nat)
    (hval : ∀ v fuel rest, P v = true → need v ≤ fuel → restHeadOk rest →
        parseValue fuel (printJson v ++ rest) = some (v, rest))
    (ms : List (String × Json))
    (h : ∀ m ∈ ms, wfStr m.1 = true ∧ P m.2 = true)
    (fuel : Nat) (hf : mfuel need ms + 1 ≤ fuel) (rest : List Char) :
    parseValue fuel (printJson (.obj ms) ++ rest) = some (.obj ms, rest) := by
  match fuel, (show 1 ≤ fuel by omega) with
  | f + 1, _ =>
    have hms : mfuel need ms ≤ f := by omega
    rw [show printJson (.obj ms) ++ rest
        = lbrace :: (printMembersJ ms ++ rbrace :: rest) by simp [printJson]]
    rw [parseValue_cons _ _ _ (by decide),
      if_neg (show ¬ (lbrace = '"') by decide), if_pos rfl]
    cases ms with
    | nil =>
      rw [show printMembersJ ([] : List (String × Json)) ++ rbrace :: rest
          = rbrace :: rest from rfl, skipWs_rbrace]
      exact parseMembers_print P need hval [] f rest true (by simp) hms
        (fun _ => rfl)
    | cons mm tt =>
      rw [skipWs_printMembers _ _ (by simp)]
      exact parseMembers_print P need hval (mm :: tt) f rest true h hms
        (fun _ => rfl)

/-- Values appearing immediately inside a serialized dialog state: flat
values or a flat object (the `messageDetails` payload). -/
def mval : Json → Bool
  | .obj ms => ms.all (fun m => wfStr m.1 && flatVal m.2)
  | v => flatVal v

/-- Fuel needed to parse a serialized member value of a dialog state. -/
def mneed : Json → Nat
  | .obj ms => mfuel (fun _ => 1) ms + 1
  | _ => 1

theorem mval_hval : ∀ (v : Json) (fuel : Nat) (rest : List Char),
    mval v = true → mneed v ≤ fuel → restHeadOk rest →
    parseValue fuel (printJson v ++ rest) = some (v, rest) := by
  intro v fuel rest hv hf hr
  cases v with
  | obj ms =>
    apply parseValue_obj flatVal (fun _ => 1) flat_hval ms ?_ fuel hf rest
    intro m hm
    have hmem := List.all_eq_true.mp hv m hm
    rw [Bool.and_eq_true] at hmem
    exact hmem
  | str s => exact flat_hval _ fuel rest hv hf hr
  | num raw => exact flat_hval _ fuel rest hv hf hr
  | null => exact absurd hv (by simp [mval, flatVal])
  | bool b2 => exact absurd hv (by simp [mval, flatVal])
  | arr es => exact absurd hv (by simp [mval, flatVal])

theorem natCharsAux_foldr (f : Nat) : ∀ n, n ≤ f →
    (natCharsAux f n).foldr (fun c a => a * 10 + (c.toNat - 48)) 0 = n := by
  induction f with
  | zero =>
    intro n h
    have : n = 0 := by omega
    subst this
    rfl
  | succ f ih =>
    intro n h
    cases n with
    | zero => rfl
    | succ m =>
      show (Char.ofNat (48 + (m + 1) % 10)
          :: natCharsAux f ((m + 1) / 10)).foldr _ 0 = m + 1
      rw [List.foldr_cons, ih ((m + 1) / 10) (by omega),
        digit_char_toNat _ (Nat.mod_lt _ (by omega))]
      omega

theorem natParse_natChars (n : Nat) : natParse (natChars n) = some n := by
  by_cases h0 : n = 0
  · subst h0
    rfl
  · have hd : digitsOk ⟨natChars n⟩ = true := digitsOk_natChars n
    unfold digitsOk at hd
    rw [Bool.and_eq_true, Bool.and_eq_true] at hd
    obtain ⟨⟨hne, hall⟩, _⟩ := hd
    unfold natParse
    rw [if_pos (by
      rw [Bool.and_eq_true]
      constructor
      · simp only [Bool.not_eq_true'] at hne
        simpa using hne
      · exact hall)]
    unfold natChars
    rw [if_neg h0, List.foldl_reverse, natCharsAux_foldr (n + 1) n (by omega)]

/-- The string fields of a well-formed dialog state need no JSON escaping. -/
def wellFormedState (s : SendToGroupState) : Bool :=
  (match s.messageDetails with
   | some d =>
     wfStr d.targetGroup && wfStr d.messageContent
       && (match d.previousMessage with | some p => wfStr p | none => true)
       && (match d.previousGroup with | some p => wfStr p | none => true)
   | none => true)
  && (match s.lastError with | some e => wfStr e | none => true)
  && (match s.lastAction with | some a => wfStr a | none => true)

theorem stageStr_wf (st : Stage) : wfStr (stageStr st) = true := by
  cases st <;> decide

theorem encodeDetails_mval (d : MessageDetails)
    (h1 : wfStr d.targetGroup = true) (h2 : wfStr d.messageContent = true)
    (h3 : match d.previousMessage with | some p => wfStr p = true | none => True)
    (h4 : match d.previousGroup with | some p => wfStr p = true | none => True) :
    mval (encodeDetails d) = true := by
  rcases d with ⟨tg, mc, pm, pg⟩
  cases pm <;> cases pg <;>
    simp_all [mval, encodeDetails, flatVal] <;> decide

theorem stateMembers_ok (s : SendToGroupState) (h : wellFormedState s = true) :
    ∀ m ∈ stateMembers s, wfStr m.1 = true ∧ mval m.2 = true := by
  rcases s with ⟨stage, md, rc, le, la⟩
  unfold wellFormedState at h
  rw [Bool.and_eq_true, Bool.and_eq_true] at h
  obtain ⟨⟨hmd, hle⟩, hla⟩ := h
  intro m hm
  unfold stateMembers at hm
  have hstage : wfStr (stageStr stage) = true := stageStr_wf stage
  cases md with
  | none =>
    cases rc <;> cases le <;> cases la <;>
      (simp at hm hle hla ⊢;
       rcases hm with hm | hm | hm | hm <;> try rcases hm with hm | hm) <;>
      simp_all [mval, flatVal, digitsOk_natChars] <;>
      first
        | exact hstage
        | decide
  | some d =>
    have hdet : mval (encodeDetails d) = true := by
      rw [Bool.and_eq_true, Bool.and_eq_true, Bool.and_eq_true] at hmd
      apply encodeDetails_mval d hmd.1.1.1 hmd.1.1.2
      · cases hp : d.previousMessage with
        | none => trivial
        | some p => rw [hp] at hmd; exact hmd.1.2
      · cases hp : d.previousGroup with
        | none => trivial
        | some p => rw [hp] at hmd; exact hmd.2
    cases rc <;> cases le <;> cases la <;>
      (simp at hm hle hla ⊢;
       rcases hm with hm | hm | hm | hm <;> try rcases hm with hm | hm) <;>
      simp_all [mval, flatVal, digitsOk_natChars] <;>
      first
        | exact hstage
        | decide

theorem printStr_len (s : String) : 2 ≤ (printStr s).length := by
  simp [printStr]

theorem mfuel_one (ms : List (String × Json)) :
    mfuel (fun _ => 1) ms = 2 * ms.length + 1 := by
  induction ms with
  | nil => rfl
  | cons m t ih => simp [mfuel, ih]; omega

theorem printMembers_len_ge (ms : List (String × Json)) :
    2 * ms.length ≤ (printMembersJ ms).length + 1 := by
  induction ms with
  | nil => simp [printMembersJ]
  | cons m t ih =>
    cases t with
    | nil =>
      have := printStr_len m.1
      simp [printMembersJ]
      omega
    | cons m2 t2 =>
      have h1 := printStr_len m.1
      have h2 := ih
      simp [printMembersJ] at h2 ⊢
      omega

theorem mneed_le (v : Json) : mneed v ≤ (printJson v).length + 1 := by
  cases v with
  | obj ms =>
    have h1 := printMembers_len_ge ms
    show mfuel (fun _ => 1) ms + 1 ≤ (printJson (.obj ms)).length + 1
    rw [mfuel_one]
    simp [printJson]
    omega
  | null => exact Nat.le_add_left _ _
  | bool b => exact Nat.le_add_left _ _
  | num raw => exact Nat.le_add_left _ _
  | str s => exact Nat.le_add_left _ _
  | arr es => exact Nat.le_add_left _ _

theorem mfuel_mneed_le (ms : List (String × Json)) :
    mfuel mneed ms ≤ (printMembersJ ms).length + 1 := by
  induction ms with
  | nil => simp [mfuel, printMembersJ]
  | cons m t ih =>
    have h1 := printStr_len m.1
    have h2 := mneed_le m.2
    cases t with
    | nil =>
      show mneed m.2 + mfuel mneed [] + 1 ≤ _
      simp [mfuel, printMembersJ]
      omega
    | cons m2 t2 =>
      show mneed m.2 + mfuel mneed (m2 :: t2) + 1 ≤ _
      simp [printMembersJ] at ih ⊢
      omega

theorem jsonParse_stringify (s : SendToGroupState)
    (h : wellFormedState s = true) :
    jsonParse (stringifyState s) = some (encodeState s) := by
  have hlen : (stringifyState s).length
      = (printJson (Json.obj (stateMembers s))).length := rfl
  have hdata : (stringifyState s).data
      = printJson (Json.obj (stateMembers s)) := rfl
  have hfuel : mfuel mneed (stateMembers s) + 1
      ≤ (printJson (Json.obj (stateMembers s))).length + 1 := by
    have h1 := mfuel_mneed_le (stateMembers s)
    have h2 : (printJson (Json.obj (stateMembers s))).length
        = (printMembersJ (stateMembers s)).length + 2 := by
      simp [printJson]
    omega
  have hparse : parseValue ((stringifyState s).length + 1)
      (printJson (Json.obj (stateMembers s)) ++ [])
      = some (Json.obj (stateMembers s), []) :=
    parseValue_obj mval mneed mval_hval (stateMembers s)
      (stateMembers_ok s h) _ (by rw [hlen]; exact hfuel) []
  rw [List.append_nil] at hparse
  unfold jsonParse
  rw [hdata, hparse]
  rfl

theorem stringifyState_ne_empty (s : SendToGroupState) :
    ¬ stringifyState s = "" := by
  intro he
  have hd := congrArg String.data he
  have hdata : (stringifyState s).data
      = printJson (Json.obj (stateMembers s)) := rfl
  rw [hdata] at hd
  simp [printJson] at hd

theorem strToStage_stageStr (st : Stage) : strToStage (stageStr st) = some st := by
  cases st <;> rfl

theorem decodeDetails_encodeDetails (d : MessageDetails) :
    decodeDetails (encodeDetails d) = some d := by
  rcases d with ⟨tg, mc, pm, pg⟩
  cases pm <;> cases pg <;> rfl

theorem decodeState_encodeState (s : SendToGroupState) :
    decodeState (encodeState s) = some s := by
  rcases s with ⟨stage, md, rc, le, la⟩
  cases md <;> cases rc <;> cases le <;> cases la <;>
    simp [decodeState, encodeState, stateMembers, jsonField, optStrField,
      optNatField, strToStage_stageStr, decodeDetails_encodeDetails,
      natParse_natChars]

/-- C9: writing a well-formed dialog state and reading it back returns a
value deep-equal to the state written: the stored string parses back to
exactly the state's JSON tree, and reading that tree field by field
recovers the state. -/
theorem set_get_roundtrip (c : Cache) (roomId : String) (s : SendToGroupState)
    (h : wellFormedState s = true) :
    getSendToGroupState (setSendToGroupState c roomId s) roomId
      = some (encodeState s)
    ∧ decodeState (encodeState s) = some s := by
  refine ⟨?_, decodeState_encodeState s⟩
  unfold getSendToGroupState setSendToGroupState
  rw [show cacheGet (cacheSet c (stateKey roomId) (stringifyState s))
      (stateKey roomId) = some (stringifyState s) from alGet_alSet_self _ _ _]
  show (if stringifyState s = "" then none else jsonParse (stringifyState s))
    = some (encodeState s)
  rw [if_neg (stringifyState_ne_empty s), jsonParse_stringify s h]

/-- Concrete well-formed dialog state used by the C9 witness. -/
def wfWitnessState : SendToGroupState :=
  ⟨.confirmation, some ⟨"My Group", "hello there", some "prev", none⟩,
    some 3, none, none⟩

/-- Witness for C9 on a concrete confirmation-stage state. -/
theorem set_get_roundtrip_witness :
    wellFormedState wfWitnessState = true
    ∧ (getSendToGroupState (setSendToGroupState [] "room1" wfWitnessState) "room1"
        = some (encodeState wfWitnessState)
      ∧ decodeState (encodeState wfWitnessState) = some wfWitnessState) :=
  ⟨by decide, set_get_roundtrip [] "room1" wfWitnessState (by decide)⟩

end TgBot
